import Mathlib

/-!
A verification development for the core scheduling pipeline of `zort`
(benchmark bucket packing, node scheduling and cost estimation).

All numeric run-record quantities (`time`, `real`, `memory`, the limits)
are C `double`s in the source; they are modelled as rationals (`Rat`),
which supports exactly the comparisons, maxima and sums the core performs.
`size_t` counters are modelled as `Nat`; the one place the source
decrements a `size_t` that may be zero (the Phase B record index) is
modelled explicitly: the function returns `none` in the situation where
the C code would wrap around and read out of the array's bounds.
-/

set_option linter.unusedVariables false

namespace Zort

/-- The `limit` sub-struct of `struct zummary`: recorded resource limits. -/
structure Limits where
  time : Rat
  real : Rat
  memory : Rat
deriving DecidableEq, Repr

/-- `struct zummary`: one run record.  The back link `benchmark` is modelled
as an index into the benchmark collection. -/
structure Zummary where
  name : String
  status : Int
  time : Rat
  real : Rat
  memory : Rat
  limit : Limits
  benchmark : Option Nat
  scheduled : Bool
  memory_limit_hit : Bool
deriving DecidableEq, Repr

instance : Inhabited Zummary := ⟨⟨"", 0, 0, 0, 0, ⟨0, 0, 0⟩, none, false, false⟩⟩

/-- `struct benchmark`: one benchmark descriptor.  The link `zummary` is
modelled as an index into the run-record collection. -/
structure Benchmark where
  number : Nat
  path : Option String
  name : String
  zummary : Option Nat
deriving DecidableEq, Repr

instance : Inhabited Benchmark := ⟨⟨0, none, "", none⟩⟩

/-- `struct bucket`.  The C field `end` is a Lean keyword, written `«end»`.
Members are stored by value at the moment they are scheduled; the source
stores pointers, but a record is never mutated after being scheduled
(the two in-place sorts skip scheduled records), so the values agree. -/
structure Bucket where
  real : Rat
  memory : Rat
  size : Nat
  finished : Bool
  start : Rat
  «end» : Rat
  memory_limit_hit : Nat
  zummaries : List Zummary
deriving DecidableEq, Repr

instance : Inhabited Bucket := ⟨⟨0, 0, 0, false, 0, 0, 0, []⟩⟩

/-- A freshly `calloc`ed bucket. -/
def bucket0 : Bucket := default

/-! ## The in-place exchange sorts

`sort_zummaries_by_time`, `sort_zummaries_by_memory` and
`sort_buckets_by_real` share one shape: a double loop that compares
position `i` with every position `j > i` and swaps whenever the pair is
strictly out of order, skipping elements satisfying `skip` (the two
zummary sorts skip scheduled records; the bucket sort skips nothing).
The zummary sorts run the outer loop while `i != n - 1`, the bucket sort
while `i != n`; the bound is the `stop` parameter. -/

/-- Inner loop of the exchange sort: compare slot `i` against slots
`j, j+1, ...`, swapping whenever `le (xs[i]) (xs[j])` fails, and skipping
slots whose element satisfies `skip` (their `scheduled` flag in the C). -/
def exchInner {α : Type} [Inhabited α] (skip : α → Bool) (le : α → α → Bool)
    (i : Nat) (xs : List α) (j : Nat) : List α :=
  if h : j < xs.length then
    if skip (xs.getD j default) then exchInner skip le i xs (j + 1)
    else if le (xs.getD i default) (xs.getD j default) then exchInner skip le i xs (j + 1)
    else exchInner skip le i ((xs.set i (xs.getD j default)).set j (xs.getD i default)) (j + 1)
  else xs
termination_by xs.length - j
decreasing_by
  all_goals first
    | omega
    | (simp only [List.length_set]; omega)

/-- Outer loop of the exchange sort. -/
def exchOuter {α : Type} [Inhabited α] (skip : α → Bool) (le : α → α → Bool)
    (stop : Nat) (xs : List α) (i : Nat) : List α :=
  if i < stop then
    if skip (xs.getD i default) then exchOuter skip le stop xs (i + 1)
    else exchOuter skip le stop (exchInner skip le i xs (i + 1)) (i + 1)
  else xs
termination_by stop - i

/-- The comparison under which the source's `continue` branches keep a pair
`(a, b)` in place: ascending in the primary key `k1`, ties decided
ascending by the secondary key `k2`. -/
def lexLe {α : Type} (k1 k2 : α → Rat) (a b : α) : Bool :=
  decide (k1 a < k1 b) || (decide (k1 a = k1 b) && decide (k2 a ≤ k2 b))

/-- `sort_zummaries_by_time`: ascending wall-clock time (`real`), ties by
`memory`, skipping scheduled records. -/
def sort_zummaries_by_time (zs : List Zummary) : List Zummary :=
  exchOuter (fun z => z.scheduled) (lexLe Zummary.real Zummary.memory) (zs.length - 1) zs 0

/-- `sort_zummaries_by_memory`: ascending `memory`, ties by `real`,
skipping scheduled records. -/
def sort_zummaries_by_memory (zs : List Zummary) : List Zummary :=
  exchOuter (fun z => z.scheduled) (lexLe Zummary.memory Zummary.real) (zs.length - 1) zs 0

/-- The keep-in-place comparison of `sort_buckets_by_real`. -/
def bucketRealLe (a b : Bucket) : Bool := decide (a.real ≤ b.real)

/-- `sort_buckets_by_real`: ascending bucket makespan. -/
def sort_buckets_by_real (bs : List Bucket) : List Bucket :=
  exchOuter (fun _ => false) bucketRealLe bs.length bs 0

/-! ## The bucket packer -/

/-- The packing configuration derived in `main` before the packing loops:
`bucket_size`, the bucket count `tasks`, the size of the final bucket
`last_bucket_size`, the fast-lane limit `limit = fast_bucket_fraction *
tasks / 100`, and the fast-lane memory threshold. -/
structure PackCfg where
  bucket_size : Nat
  tasks : Nat
  last_bucket_size : Nat
  limit : Nat
  fast_bucket_memory : Rat
deriving DecidableEq, Repr

/-- `tasks = size_benchmarks / bucket_size`, incremented when the division
is not exact. -/
def tasks_of (n bs : Nat) : Nat :=
  if (n / bs) * bs == n then n / bs else n / bs + 1

/-- `last_bucket_size`: `bucket_size` when the division is exact, otherwise
`size_benchmarks % bucket_size`. -/
def last_bucket_size_of (n bs : Nat) : Nat :=
  if (n / bs) * bs == n then bs else n % bs

/-- Build the `PackCfg` the way `main` does for `n` records, given the
configured bucket size, fast-bucket fraction (percent) and fast-bucket
memory threshold. -/
def mkPackCfg (bucket_size fast_bucket_fraction : Nat) (fast_bucket_memory : Rat)
    (n : Nat) : PackCfg :=
  { bucket_size := bucket_size
    tasks := tasks_of n bucket_size
    last_bucket_size := last_bucket_size_of n bucket_size
    limit := fast_bucket_fraction * tasks_of n bucket_size / 100
    fast_bucket_memory := fast_bucket_memory }

/-- The capacity `next_bucket` enforces for bucket `k`: `last_bucket_size`
for the final bucket, `bucket_size` otherwise. -/
def cap (c : PackCfg) (k : Nat) : Nat :=
  if k + 1 == c.tasks then c.last_bucket_size else c.bucket_size

/-- `schedule_zummary`: append the record to the bucket, update the bucket
makespan (`real` is the max member wall time) and memory sum, account a
memory-limit hit when the status is 2 or the measured memory reached the
limit, and mark the record scheduled.  Returns the updated bucket and
record; the caller increments the global `scheduled` counter. -/
def schedule_zummary (b : Bucket) (z : Zummary) : Bucket × Zummary :=
  let hit := z.status == 2 || decide (z.limit.memory ≤ z.memory)
  let z' := { z with memory_limit_hit := hit, scheduled := true }
  ({ b with
      size := b.size + 1
      zummaries := b.zummaries ++ [z']
      real := if b.real < z.real then z.real else b.real
      memory := b.memory + z.memory
      memory_limit_hit := b.memory_limit_hit + (if hit then 1 else 0) },
   z')

/-- One advance step of `next_bucket`: increment the candidate index,
wrapping from `tasks` to `0`. -/
def bstep (c : PackCfg) (res : Nat) : Nat :=
  if res + 1 == c.tasks then 0 else res + 1

/-- The scan of `next_bucket`, with explicit fuel: `none` models the
`for (;;)` loop cycling forever because no bucket has spare capacity. -/
def next_bucket_go (c : PackCfg) (bsk : List Bucket) : Nat → Nat → Option Nat
  | _, 0 => none
  | res, fuel + 1 =>
    let res' := bstep c res
    if (bsk.getD res' default).size < cap c res' then some res'
    else next_bucket_go c bsk res' fuel

/-- `next_bucket j`: the next bucket index after `j` in the forward
rotation (wrapping at `tasks`) that still has spare capacity.  `tasks`
steps visit every index once, so that much fuel is exact. -/
def next_bucket (c : PackCfg) (bsk : List Bucket) (j : Nat) : Option Nat :=
  next_bucket_go c bsk j c.tasks

/-- A record is taken by the Phase A fast lane iff its status is one of the
two success codes (10, 20) and its memory is within the fast-bucket
threshold (both `continue` tests of the loop negated). -/
def eligible (c : PackCfg) (z : Zummary) : Bool :=
  (z.status == 10 || z.status == 20) && decide (z.memory ≤ c.fast_bucket_memory)

/-- Phase A loop (`main`, non-keep branch): walk the time-sorted records,
schedule each eligible one into bucket `j`, advance `j` when the bucket
reaches `bucket_size`, and break as soon as the incremented `j` equals
`limit`.  State: records, buckets, current bucket `j`, global `scheduled`
counter `s`, loop index `i`.  Returns records, buckets and counter. -/
def phaseA_go (c : PackCfg) (zs : List Zummary) (bsk : List Bucket)
    (j s i : Nat) : List Zummary × List Bucket × Nat :=
  if h : i < zs.length then
    if eligible c (zs.getD i default) then
      if c.bucket_size ≤ (schedule_zummary (bsk.getD j default) (zs.getD i default)).1.size then
        if j + 1 == c.limit then
          (zs.set i (schedule_zummary (bsk.getD j default) (zs.getD i default)).2,
            bsk.set j (schedule_zummary (bsk.getD j default) (zs.getD i default)).1, s + 1)
        else
          phaseA_go c (zs.set i (schedule_zummary (bsk.getD j default) (zs.getD i default)).2)
            (bsk.set j (schedule_zummary (bsk.getD j default) (zs.getD i default)).1)
            (j + 1) (s + 1) (i + 1)
      else
        phaseA_go c (zs.set i (schedule_zummary (bsk.getD j default) (zs.getD i default)).2)
          (bsk.set j (schedule_zummary (bsk.getD j default) (zs.getD i default)).1)
          j (s + 1) (i + 1)
    else phaseA_go c zs bsk j s (i + 1)
  else (zs, bsk, s)
termination_by zs.length - i
decreasing_by
  all_goals first
    | omega
    | (simp only [List.length_set]; omega)

/-- Phase A: sort the records by time and run the fast-lane loop from
bucket 0 on freshly allocated buckets. -/
def phaseA (c : PackCfg) (zs : List Zummary) : List Zummary × List Bucket × Nat :=
  phaseA_go c (sort_zummaries_by_time zs) (List.replicate c.tasks bucket0) 0 0 0

/-- Phase B loop (`main`, non-keep branch): `last` walks backward over the
memory-sorted records; each unscheduled record is scheduled into bucket
`j`, then `j` moves to the next bucket with spare capacity; the loop
breaks when the `scheduled` counter reaches the record count.  The C code
decrements the `size_t` index `last` unconditionally: when `last` is
already 0 the decrement wraps around and `zummaries + --last` is read out
of bounds.  That situation — and a `next_bucket` call that cycles forever
— is modelled by `none`. -/
def phaseB_go (c : PackCfg) (zs : List Zummary) (bsk : List Bucket)
    (j s : Nat) : Nat → Option (List Zummary × List Bucket × Nat)
  | 0 => none
  | last + 1 =>
    let z := zs.getD last default
    if z.scheduled then phaseB_go c zs bsk j s last
    else
      let bz := schedule_zummary (bsk.getD j default) z
      let zs' := zs.set last bz.2
      let bsk' := bsk.set j bz.1
      if s + 1 == zs.length then some (zs', bsk', s + 1)
      else
        match next_bucket c bsk' j with
        | some j' => phaseB_go c zs' bsk' j' (s + 1) last
        | none => none

/-- Phase B: re-sort the (unscheduled) records by memory and run the
balancing loop starting at the last bucket with `last = size_zummaries`. -/
def phaseB (c : PackCfg) (zs : List Zummary) (bsk : List Bucket) (s : Nat) :
    Option (List Zummary × List Bucket × Nat) :=
  let zs' := sort_zummaries_by_memory zs
  phaseB_go c zs' bsk (c.tasks - 1) s zs'.length

/-- The full two-phase packer (non-keep mode): Phase A then Phase B on
freshly allocated buckets. -/
def pack (c : PackCfg) (zs : List Zummary) :
    Option (List Zummary × List Bucket × Nat) :=
  let a := phaseA c zs
  phaseB c a.1 a.2.1 a.2.2

/-- Keep mode (`-k`): schedule the records in the benchmarks' original
order — `idxs` lists `benchmark->zummary` for each benchmark in order —
filling bucket 0 to `bucket_size`, then bucket 1, and so on. -/
def keep_go (c : PackCfg) (zs : List Zummary) (bsk : List Bucket)
    (j s : Nat) : List Nat → List Zummary × List Bucket × Nat
  | [] => (zs, bsk, s)
  | bi :: rest =>
    let z := zs.getD bi default
    let bz := schedule_zummary (bsk.getD j default) z
    let zs' := zs.set bi bz.2
    let bsk' := bsk.set j bz.1
    let j' := if c.bucket_size ≤ bz.1.size then j + 1 else j
    keep_go c zs' bsk' j' (s + 1) rest

/-- Keep-mode packing from freshly allocated buckets. -/
def keep_pack (c : PackCfg) (idxs : List Nat) (zs : List Zummary) :
    List Zummary × List Bucket × Nat :=
  keep_go c zs (List.replicate c.tasks bucket0) 0 0 idxs

/-! ## The matcher -/

/-- `find_benchmark`: index of the first benchmark with the given name
(the C routine scans the array linearly and returns the first match). -/
def find_benchmark (bs : List Benchmark) (name : String) : Option Nat :=
  match bs with
  | [] => none
  | b :: rest =>
    if b.name == name then some 0
    else (find_benchmark rest name).map (fun k => k + 1)

/-- `find_zummary`: index of the first run record with the given name. -/
def find_zummary (zs : List Zummary) (name : String) : Option Nat :=
  match zs with
  | [] => none
  | z :: rest =>
    if z.name == name then some 0
    else (find_zummary rest name).map (fun k => k + 1)

/-- First matcher loop: for every record, find the benchmark of equal name
(fatal if none), store the link, and initialize `scheduled := false`. -/
def link_zummaries (bs : List Benchmark) : List Zummary → Option (List Zummary)
  | [] => some []
  | z :: rest =>
    match find_benchmark bs z.name with
    | none => none
    | some bi =>
      match link_zummaries bs rest with
      | none => none
      | some rest' => some ({ z with benchmark := some bi, scheduled := false } :: rest')

/-- Second matcher loop: for every benchmark, find the record of equal name
(fatal if none) and store the link. -/
def link_benchmarks (zs : List Zummary) : List Benchmark → Option (List Benchmark)
  | [] => some []
  | b :: rest =>
    match find_zummary zs b.name with
    | none => none
    | some zi =>
      match link_benchmarks zs rest with
      | none => none
      | some rest' => some ({ b with zummary := some zi } :: rest')

/-- The matcher: link records to benchmarks, benchmarks to records, then
die unless the collection sizes agree.  `none` models the three `die`
branches. -/
def match_collections (bs : List Benchmark) (zs : List Zummary) :
    Option (List Zummary × List Benchmark) :=
  match link_zummaries bs zs with
  | none => none
  | some zs' =>
    match link_benchmarks zs bs with
    | none => none
    | some bs' =>
      if bs.length == zs.length then some (zs', bs') else none

/-! ## The node scheduler -/

/-- The node scan of the scheduling loop: walk the node slots in index
order; stop at the first empty slot (`!prev` in the C), otherwise remember
the first slot whose bucket has the strictly smallest `end`.  Returns the
chosen position and the bucket it currently holds (`replace`).  The second
component of the accumulator mirrors the C variables `pos`/`replace`;
the fallback `(0, none)` is only reached when there are no nodes at all,
where the C would use its `invalid_position` sentinel. -/
def pick_go (nodes : List (Option Bucket)) :
    Nat → Nat → Option (Nat × Bucket) → Nat × Option Bucket
  | 0, _, best =>
    match best with
    | some pb => (pb.1, some pb.2)
    | none => (0, none)
  | fuel + 1, j, best =>
    match nodes.getD j none with
    | none => (j, none)
    | some prev =>
      match best with
      | none => pick_go nodes fuel (j + 1) (some (j, prev))
      | some pb =>
        if prev.«end» < pb.2.«end» then pick_go nodes fuel (j + 1) (some (j, prev))
        else pick_go nodes fuel (j + 1) (some pb)

/-- Select the node for the next bucket: the scan starts at slot 0 with no
candidate and runs for exactly `size_nodes` steps (the `for` loop bound). -/
def pick_node (nodes : List (Option Bucket)) : Nat × Option Bucket :=
  pick_go nodes nodes.length 0 none

/-- The end time a node slot contributes: the expression
`replace ? replace->end : 0` of the scheduling loop (an idle node counts
as end time 0). -/
def node_end (s : Option Bucket) : Rat :=
  match s with
  | some b => b.«end»
  | none => 0

/-- One trace entry of the node scheduler: the chosen node index and the
`start`/`end` written into the bucket. -/
structure Assign where
  pos : Nat
  start : Rat
  «end» : Rat
deriving DecidableEq, Repr

instance : Inhabited Assign := ⟨⟨0, 0, 0⟩⟩

/-- The node-scheduling loop over the (sorted) buckets: pick a node, set
`start` to that node's current end (0 for an idle node), `end` to
`start + real`, install the bucket on the node, and fold the latency
maximum.  Also returns the updated buckets in order and the assignment
trace. -/
def run_nodes_go (nodes : List (Option Bucket)) (latency : Rat) :
    List Bucket → List (Option Bucket) × Rat × List Bucket × List Assign
  | [] => (nodes, latency, [], [])
  | b :: rest =>
    let pr := pick_node nodes
    let start := node_end pr.2
    let fin := start + b.real
    let b' := { b with start := start, «end» := fin }
    let nodes' := nodes.set pr.1 (some b')
    let latency' := if latency < fin then fin else latency
    let r := run_nodes_go nodes' latency' rest
    (r.1, r.2.1, b' :: r.2.2.1, ⟨pr.1, start, fin⟩ :: r.2.2.2)

/-- The node scheduler: sort the buckets ascending by `real`, then run the
greedy loop on `size_nodes` initially idle nodes with latency 0. -/
def run_nodes (size_nodes : Nat) (bs : List Bucket) :
    List (Option Bucket) × Rat × List Bucket × List Assign :=
  run_nodes_go (List.replicate size_nodes none) 0 (sort_buckets_by_real bs)

/-! ## The cost estimator -/

/-- `sum_real`: folded over the buckets in order, as the report loop does. -/
def sum_real_buckets (bs : List Bucket) : Rat :=
  bs.foldl (fun acc b => acc + b.real) 0

/-- `core_seconds = bucket_size * sum_real`. -/
def core_seconds (bucket_size : Nat) (bs : List Bucket) : Rat :=
  (bucket_size : Rat) * sum_real_buckets bs

/-- `core_hours = core_seconds / 3600`. -/
def core_hours (bucket_size : Nat) (bs : List Bucket) : Rat :=
  core_seconds bucket_size bs / 3600

/-- `power_usage = core_hours * watt_per_core / 1000`. -/
def power_usage (bucket_size watt_per_core : Nat) (bs : List Bucket) : Rat :=
  core_hours bucket_size bs * (watt_per_core : Rat) / 1000

/-- `costs = cents_per_kwh * power_usage / 100`. -/
def costs (bucket_size watt_per_core cents_per_kwh : Nat) (bs : List Bucket) : Rat :=
  (cents_per_kwh : Rat) * power_usage bucket_size watt_per_core bs / 100

/-! ## Derived measures used throughout the development -/

/-- Total member count over the buckets. -/
def sumSizes (bsk : List Bucket) : Nat := (bsk.map Bucket.size).sum

/-- Total capacity over all bucket indices. -/
def capsSum (c : PackCfg) : Nat := ((List.range c.tasks).map (cap c)).sum

/-- The number of records carrying the `scheduled` flag. -/
def nsched (zs : List Zummary) : Nat := zs.countP (fun z => z.scheduled)

/-- The bucket layout Phase A maintains: buckets before `j'` are full at
`bucket_size`, buckets after `j'` are untouched, and the scheduled counter
counts exactly the members placed so far. -/
def phaseA_shape (c : PackCfg) (bsk : List Bucket) (s : Nat) : Prop :=
  ∃ j', (∀ k, k < j' → (bsk.getD k default).size = c.bucket_size) ∧
    (∀ k, j' < k → (bsk.getD k default).size = 0) ∧
    s = j' * c.bucket_size + (bsk.getD j' default).size ∧
    (bsk.getD j' default).size ≤ c.bucket_size

/-- The trace entries assigned to one node chain together: each starts
exactly where the previous one (or the node's pre-existing bucket) ended. -/
def chain_from (e : Rat) : List Assign → Prop
  | [] => True
  | a :: rest => a.start = e ∧ chain_from a.«end» rest

/-- The scheduled counter a packing result reports. -/
def pack_sched_count (o : Option (List Zummary × List Bucket × Nat)) : Nat :=
  match o with
  | some out => out.2.2
  | none => 0

/-- The record-list length a packing result carries. -/
def pack_len (o : Option (List Zummary × List Bucket × Nat)) : Nat :=
  match o with
  | some out => out.1.length
  | none => 0

/-- The node-selection rule in the words of the specification: scan all
node slots and keep the index whose current end time (an idle node counts
as 0) is strictly smallest, so that ties are broken by the lowest node
index.  Stated for comparison with `pick_node`, which is translated from
the source. -/
def spec_pick_node (nodes : List (Option Bucket)) : Nat :=
  (List.range nodes.length).foldl
    (fun best k =>
      if node_end (nodes.getD k none) < node_end (nodes.getD best none) then k else best) 0

/-! ## Concrete inputs used by the claims -/

/-- Record A of the spec's worked example: wall 5, memory 10, status 10. -/
def zA : Zummary :=
  { name := "A", status := 10, time := 5, real := 5, memory := 10,
    limit := ⟨0, 0, 100000⟩, benchmark := none, scheduled := false,
    memory_limit_hit := false }

/-- Record B of the spec's worked example: wall 2, memory 50, status 10. -/
def zB : Zummary := { zA with name := "B", time := 2, real := 2, memory := 50 }

/-- Record C of the spec's worked example: wall 9, memory 5, status 20. -/
def zC : Zummary := { zA with name := "C", status := 20, time := 9, real := 9, memory := 5 }

/-- The configuration of the spec's worked example: bucket_size 1,
fast_bucket_fraction 100, fast_bucket_memory 100, three records. -/
def exampleCfg : PackCfg := mkPackCfg 1 100 100 3

def z1 : Zummary := { zA with name := "a", time := 1, real := 1, memory := 5 }

def w1 : Zummary := { zA with name := "w1", real := 1, memory := 5 }

def w2 : Zummary := { zA with name := "w2", status := 0, real := 2, memory := 10 }

def w3 : Zummary := { zA with name := "w3", status := 30, real := 3, memory := 3 }

def w4 : Zummary := { zA with name := "w4", real := 4, memory := 6 }

def w5 : Zummary := { zA with name := "w5", real := 6, memory := 7 }

def sX : Zummary := { zA with name := "X", memory := 2, real := 2 }

def sY : Zummary := { zA with name := "Y", memory := 2, real := 2 }

def sZ : Zummary := { zA with name := "Z", memory := 1, real := 1 }

def benchA : Benchmark := { number := 0, path := none, name := "A", zummary := none }

def c3cfg : PackCfg := mkPackCfg 64 50 8000 1

def c4cfg : PackCfg := mkPackCfg 1 100 8000 1

def c5cfg : PackCfg := mkPackCfg 1 100 8000 2

def c6cfg : PackCfg := mkPackCfg 2 50 8000 3

def nb0 : Bucket := { bucket0 with real := 0 }

def nb5 : Bucket := { bucket0 with real := 5 }

/-! ## List access helpers -/

theorem getD_set_self {α : Type} (l : List α) (i : Nat) (a d : α) (h : i < l.length) :
    (l.set i a).getD i d = a := by
  rw [List.getD_eq_getElem?_getD, List.getElem?_set_self h, Option.getD_some]

theorem getD_set_ne {α : Type} (l : List α) {i j : Nat} (a d : α) (h : i ≠ j) :
    (l.set i a).getD j d = l.getD j d := by
  rw [List.getD_eq_getElem?_getD, List.getElem?_set_ne h, ← List.getD_eq_getElem?_getD]

theorem getD_of_le {α : Type} (l : List α) {i : Nat} (d : α) (h : l.length ≤ i) :
    l.getD i d = d := by
  rw [List.getD_eq_getElem?_getD, List.getElem?_eq_none h, Option.getD_none]

/-- Swapping two distinct in-range entries of a list is a permutation. -/
theorem set_set_perm {α : Type} [DecidableEq α] (l : List α) {i j : Nat} (d : α)
    (hij : i ≠ j) (hi : i < l.length) (hj : j < l.length) :
    ((l.set i (l.getD j d)).set j (l.getD i d)).Perm l := by
  rw [List.perm_iff_count]
  intro a
  have hjA : j < (l.set i (l.getD j d)).length := by
    rw [List.length_set]; exact hj
  have hAj : (l.set i (l.getD j d))[j] = l[j] := List.getElem_set_ne hij _
  rw [List.count_set _ _ _ _ hjA, List.count_set _ _ _ _ hi, hAj]
  rw [List.getD_eq_getElem l d hj, List.getD_eq_getElem l d hi]
  have hC : (l[i] == a) = true → 1 ≤ List.count a l := by
    intro hb
    rw [beq_iff_eq] at hb
    exact List.count_pos_iff.mpr (hb ▸ List.getElem_mem hi)
  cases hb1 : (l[i] == a) <;> cases hb2 : (l[j] == a) <;>
    simp [hb1, hb2, List.length_set] <;>
    first
      | omega
      | (have hC1 := hC hb1; omega)

/-! ## Properties of the exchange-sort inner loop -/

theorem exchInner_length {α : Type} [Inhabited α] (skip : α → Bool) (le : α → α → Bool) :
    ∀ (fuel : Nat) (xs : List α) (j i : Nat), xs.length ≤ j + fuel →
      (exchInner skip le i xs j).length = xs.length := by
  intro fuel
  induction fuel with
  | zero =>
    intro xs j i h
    rw [exchInner, dif_neg (by omega : ¬ j < xs.length)]
  | succ f ih =>
    intro xs j i h
    rw [exchInner]
    split
    · split
      · exact ih xs (j + 1) i (by omega)
      · split
        · exact ih xs (j + 1) i (by omega)
        · have hr := ih ((xs.set i (xs.getD j default)).set j (xs.getD i default)) (j + 1) i
            (by simp only [List.length_set]; omega)
          simp only [List.length_set] at hr ⊢
          exact hr
    · rfl

theorem exchInner_len {α : Type} [Inhabited α] (skip : α → Bool) (le : α → α → Bool)
    (xs : List α) (j i : Nat) : (exchInner skip le i xs j).length = xs.length :=
  exchInner_length skip le xs.length xs j i (by omega)

theorem exchInner_stable {α : Type} [Inhabited α] (skip : α → Bool) (le : α → α → Bool) :
    ∀ (fuel : Nat) (xs : List α) (j i : Nat), xs.length ≤ j + fuel →
      i < j → i < xs.length → skip (xs.getD i default) = false →
      ∀ p, (p < j ∧ p ≠ i) ∨ skip (xs.getD p default) = true →
        (exchInner skip le i xs j).getD p default = xs.getD p default := by
  intro fuel
  induction fuel with
  | zero =>
    intro xs j i hf hij hi hsk p hp
    rw [exchInner, dif_neg (by omega : ¬ j < xs.length)]
  | succ f ih =>
    intro xs j i hf hij hi hsk p hp
    rw [exchInner]
    split
    · next hjlen =>
      split
      · next hskj =>
        refine ih xs (j + 1) i (by omega) (by omega) hi hsk p ?_
        rcases hp with ⟨hpj, hpi⟩ | hps
        · exact Or.inl ⟨by omega, hpi⟩
        · exact Or.inr hps
      · next hskj =>
        have hskj' : skip (xs.getD j default) = false := by
          simpa using hskj
        split
        · refine ih xs (j + 1) i (by omega) (by omega) hi hsk p ?_
          rcases hp with ⟨hpj, hpi⟩ | hps
          · exact Or.inl ⟨by omega, hpi⟩
          · exact Or.inr hps
        · next hle =>
          have hij' : i ≠ j := by omega
          have hlen' : ((xs.set i (xs.getD j default)).set j (xs.getD i default)).length
              = xs.length := by simp only [List.length_set]
          have hx'i : ((xs.set i (xs.getD j default)).set j (xs.getD i default)).getD i default
              = xs.getD j default := by
            rw [getD_set_ne _ _ _ (fun hh => hij' hh.symm), getD_set_self _ _ _ _ hi]
          have hstep : ∀ p', p' ≠ i → p' ≠ j →
              ((xs.set i (xs.getD j default)).set j (xs.getD i default)).getD p' default
                = xs.getD p' default := by
            intro p' hpi hpj
            rw [getD_set_ne _ _ _ (fun hh => hpj hh.symm), getD_set_ne _ _ _ (fun hh => hpi hh.symm)]
          have hskx' : skip (((xs.set i (xs.getD j default)).set j (xs.getD i default)).getD i default)
              = false := by rw [hx'i]; exact hskj'
          have hpi : p ≠ i := by
            rcases hp with ⟨_, hpi⟩ | hps
            · exact hpi
            · intro hh; rw [hh] at hps; rw [hps] at hsk; exact Bool.false_ne_true hsk.symm
          have hpj : p ≠ j := by
            rcases hp with ⟨hpj, _⟩ | hps
            · omega
            · intro hh; rw [hh] at hps; rw [hps] at hskj'; exact Bool.false_ne_true hskj'.symm
          have hxp : ((xs.set i (xs.getD j default)).set j (xs.getD i default)).getD p default
              = xs.getD p default := hstep p hpi hpj
          have hr := ih ((xs.set i (xs.getD j default)).set j (xs.getD i default)) (j + 1) i
            (by rw [hlen']; omega) (by omega) (by rw [hlen']; exact hi) hskx' p ?_
          · rw [hr, hxp]
          · rcases hp with ⟨hpj2, hpi2⟩ | hps
            · exact Or.inl ⟨by omega, hpi2⟩
            · exact Or.inr (by rw [hxp]; exact hps)
    · rfl

theorem exchInner_min {α : Type} [Inhabited α] (skip : α → Bool) (le : α → α → Bool)
    (hrefl : ∀ a, le a a = true)
    (htot : ∀ a b, le a b = false → le b a = true)
    (htrans : ∀ a b c, le a b = true → le b c = true → le a c = true) :
    ∀ (fuel : Nat) (xs : List α) (j i : Nat), xs.length ≤ j + fuel →
      i < j → i < xs.length → skip (xs.getD i default) = false →
      skip ((exchInner skip le i xs j).getD i default) = false ∧
      le ((exchInner skip le i xs j).getD i default) (xs.getD i default) = true ∧
      (∀ q, j ≤ q → q < xs.length →
        skip ((exchInner skip le i xs j).getD q default) = false →
        le ((exchInner skip le i xs j).getD i default)
          ((exchInner skip le i xs j).getD q default) = true) := by
  intro fuel
  induction fuel with
  | zero =>
    intro xs j i hf hij hi hsk
    rw [exchInner, dif_neg (by omega : ¬ j < xs.length)]
    exact ⟨hsk, hrefl _, fun q hq1 hq2 _ => absurd hq2 (by omega)⟩
  | succ f ih =>
    intro xs j i hf hij hi hsk
    rw [exchInner]
    split
    · next hjlen =>
      split
      · next hskj =>
        obtain ⟨s1, s2, s3⟩ := ih xs (j + 1) i (by omega) (by omega) hi hsk
        refine ⟨s1, s2, fun q hq1 hq2 hq3 => ?_⟩
        rcases Nat.eq_or_lt_of_le hq1 with hq | hq
        · exfalso
          have hj : (exchInner skip le i xs (j + 1)).getD j default = xs.getD j default :=
            exchInner_stable skip le xs.length xs (j + 1) i (by omega) (by omega) hi hsk j
              (Or.inl ⟨by omega, by omega⟩)
          rw [← hq, hj, hskj] at hq3
          cases hq3
        · exact s3 q (by omega) hq2 hq3
      · next hskj =>
        have hskj' : skip (xs.getD j default) = false := by simpa using hskj
        split
        · next hle =>
          obtain ⟨s1, s2, s3⟩ := ih xs (j + 1) i (by omega) (by omega) hi hsk
          refine ⟨s1, s2, fun q hq1 hq2 hq3 => ?_⟩
          rcases Nat.eq_or_lt_of_le hq1 with hq | hq
          · have hj : (exchInner skip le i xs (j + 1)).getD j default = xs.getD j default :=
              exchInner_stable skip le xs.length xs (j + 1) i (by omega) (by omega) hi hsk j
                (Or.inl ⟨by omega, by omega⟩)
            rw [← hq, hj]
            exact htrans _ _ _ s2 hle
          · exact s3 q (by omega) hq2 hq3
        · next hle =>
          have hle' : le (xs.getD i default) (xs.getD j default) = false := by
            simpa using hle
          have hij' : i ≠ j := by omega
          have hlen' : ((xs.set i (xs.getD j default)).set j (xs.getD i default)).length
              = xs.length := by simp only [List.length_set]
          have hx'i : ((xs.set i (xs.getD j default)).set j (xs.getD i default)).getD i default
              = xs.getD j default := by
            rw [getD_set_ne _ _ _ (fun hh => hij' hh.symm), getD_set_self _ _ _ _ hi]
          have hx'j : ((xs.set i (xs.getD j default)).set j (xs.getD i default)).getD j default
              = xs.getD i default := by
            refine getD_set_self _ _ _ _ ?_
            rw [List.length_set]; exact hjlen
          have hskx' : skip (((xs.set i (xs.getD j default)).set j (xs.getD i default)).getD i
              default) = false := by rw [hx'i]; exact hskj'
          obtain ⟨s1, s2, s3⟩ := ih ((xs.set i (xs.getD j default)).set j (xs.getD i default))
            (j + 1) i (by rw [hlen']; omega) (by omega) (by rw [hlen']; exact hi) hskx'
          rw [hx'i] at s2
          have hgoal2 : le ((exchInner skip le i
              ((xs.set i (xs.getD j default)).set j (xs.getD i default)) (j + 1)).getD i default)
              (xs.getD i default) = true :=
            htrans _ _ _ s2 (htot _ _ hle')
          refine ⟨s1, hgoal2, fun q hq1 hq2 hq3 => ?_⟩
          rcases Nat.eq_or_lt_of_le hq1 with hq | hq
          · have hj : (exchInner skip le i
                ((xs.set i (xs.getD j default)).set j (xs.getD i default)) (j + 1)).getD j default
                = ((xs.set i (xs.getD j default)).set j (xs.getD i default)).getD j default :=
              exchInner_stable skip le xs.length
                ((xs.set i (xs.getD j default)).set j (xs.getD i default)) (j + 1) i
                (by rw [hlen']; omega) (by omega) (by rw [hlen']; exact hi) hskx' j
                (Or.inl ⟨by omega, by omega⟩)
            rw [← hq, hj, hx'j]
            exact hgoal2
          · exact s3 q (by omega) (by rw [hlen']; exact hq2) hq3
    · next hjlen =>
      exact ⟨hsk, hrefl _, fun q hq1 hq2 _ => absurd hq2 (by omega)⟩

theorem exchInner_mem {α : Type} [Inhabited α] (skip : α → Bool) (le : α → α → Bool) :
    ∀ (fuel : Nat) (xs : List α) (j i : Nat), xs.length ≤ j + fuel →
      i < j → i < xs.length → skip (xs.getD i default) = false →
      ∀ q, i ≤ q → q < xs.length →
        ∃ p, i ≤ p ∧ p < xs.length ∧
          (exchInner skip le i xs j).getD q default = xs.getD p default := by
  intro fuel
  induction fuel with
  | zero =>
    intro xs j i hf hij hi hsk q hq1 hq2
    rw [exchInner, dif_neg (by omega : ¬ j < xs.length)]
    exact ⟨q, hq1, hq2, rfl⟩
  | succ f ih =>
    intro xs j i hf hij hi hsk q hq1 hq2
    rw [exchInner]
    split
    · next hjlen =>
      split
      · exact ih xs (j + 1) i (by omega) (by omega) hi hsk q hq1 hq2
      · next hskj =>
        have hskj' : skip (xs.getD j default) = false := by simpa using hskj
        split
        · exact ih xs (j + 1) i (by omega) (by omega) hi hsk q hq1 hq2
        · have hij' : i ≠ j := by omega
          have hlen' : ((xs.set i (xs.getD j default)).set j (xs.getD i default)).length
              = xs.length := by simp only [List.length_set]
          have hx'i : ((xs.set i (xs.getD j default)).set j (xs.getD i default)).getD i default
              = xs.getD j default := by
            rw [getD_set_ne _ _ _ (fun hh => hij' hh.symm), getD_set_self _ _ _ _ hi]
          have hskx' : skip (((xs.set i (xs.getD j default)).set j (xs.getD i default)).getD i
              default) = false := by rw [hx'i]; exact hskj'
          obtain ⟨p, hp1, hp2, hp3⟩ := ih
            ((xs.set i (xs.getD j default)).set j (xs.getD i default)) (j + 1) i
            (by rw [hlen']; omega) (by omega) (by rw [hlen']; exact hi) hskx' q hq1
            (by rw [hlen']; exact hq2)
          rw [hlen'] at hp2
          by_cases hpi : p = i
          · refine ⟨j, by omega, hjlen, ?_⟩
            rw [hp3, hpi, hx'i]
          · by_cases hpj : p = j
            · refine ⟨i, le_refl i, hi, ?_⟩
              rw [hp3, hpj]
              refine getD_set_self _ _ _ _ ?_
              rw [List.length_set]; exact hjlen
            · refine ⟨p, hp1, hp2, ?_⟩
              rw [hp3, getD_set_ne _ _ _ (fun hh => hpj hh.symm),
                getD_set_ne _ _ _ (fun hh => hpi hh.symm)]
    · exact ⟨q, hq1, hq2, rfl⟩

theorem exchInner_perm {α : Type} [Inhabited α] [DecidableEq α]
    (skip : α → Bool) (le : α → α → Bool) :
    ∀ (fuel : Nat) (xs : List α) (j i : Nat), xs.length ≤ j + fuel → i < j → i < xs.length →
      (exchInner skip le i xs j).Perm xs := by
  intro fuel
  induction fuel with
  | zero =>
    intro xs j i hf hij hi
    rw [exchInner, dif_neg (by omega : ¬ j < xs.length)]
  | succ f ih =>
    intro xs j i hf hij hi
    rw [exchInner]
    split
    · next hjlen =>
      split
      · exact ih xs (j + 1) i (by omega) (by omega) hi
      · split
        · exact ih xs (j + 1) i (by omega) (by omega) hi
        · have hij' : i ≠ j := by omega
          have hlen' : ((xs.set i (xs.getD j default)).set j (xs.getD i default)).length
              = xs.length := by simp only [List.length_set]
          refine List.Perm.trans
            (ih ((xs.set i (xs.getD j default)).set j (xs.getD i default)) (j + 1) i
              (by rw [hlen']; omega) (by omega) (by rw [hlen']; exact hi)) ?_
          exact set_set_perm xs default hij' hi hjlen
    · exact List.Perm.refl xs

/-! ## Properties of the exchange-sort outer loop -/

theorem exchOuter_length {α : Type} [Inhabited α] (skip : α → Bool) (le : α → α → Bool) :
    ∀ (fuel : Nat) (xs : List α) (stop i : Nat), stop ≤ i + fuel →
      (exchOuter skip le stop xs i).length = xs.length := by
  intro fuel
  induction fuel with
  | zero =>
    intro xs stop i h
    rw [exchOuter, if_neg (by omega : ¬ i < stop)]
  | succ f ih =>
    intro xs stop i h
    rw [exchOuter]
    split
    · split
      · exact ih xs stop (i + 1) (by omega)
      · rw [ih (exchInner skip le i xs (i + 1)) stop (i + 1) (by omega)]
        exact exchInner_len skip le xs (i + 1) i
    · rfl

theorem exchOuter_perm {α : Type} [Inhabited α] [DecidableEq α]
    (skip : α → Bool) (le : α → α → Bool) :
    ∀ (fuel : Nat) (xs : List α) (stop i : Nat), stop ≤ i + fuel → stop ≤ xs.length →
      (exchOuter skip le stop xs i).Perm xs := by
  intro fuel
  induction fuel with
  | zero =>
    intro xs stop i h hs
    rw [exchOuter, if_neg (by omega : ¬ i < stop)]
  | succ f ih =>
    intro xs stop i h hs
    rw [exchOuter]
    split
    · next hi =>
      split
      · exact ih xs stop (i + 1) (by omega) hs
      · refine List.Perm.trans
          (ih (exchInner skip le i xs (i + 1)) stop (i + 1) (by omega)
            (by rw [exchInner_len]; exact hs)) ?_
        exact exchInner_perm skip le xs.length xs (i + 1) i (by omega) (by omega) (by omega)
    · exact List.Perm.refl xs

theorem exchOuter_skip_stable {α : Type} [Inhabited α] (skip : α → Bool) (le : α → α → Bool) :
    ∀ (fuel : Nat) (xs : List α) (stop i : Nat), stop ≤ i + fuel → stop ≤ xs.length →
      ∀ p, skip (xs.getD p default) = true →
        (exchOuter skip le stop xs i).getD p default = xs.getD p default := by
  intro fuel
  induction fuel with
  | zero =>
    intro xs stop i h hs p hp
    rw [exchOuter, if_neg (by omega : ¬ i < stop)]
  | succ f ih =>
    intro xs stop i h hs p hp
    rw [exchOuter]
    split
    · next hi =>
      split
      · exact ih xs stop (i + 1) (by omega) hs p hp
      · next hski =>
        have hski' : skip (xs.getD i default) = false := by simpa using hski
        have hstep : (exchInner skip le i xs (i + 1)).getD p default = xs.getD p default :=
          exchInner_stable skip le xs.length xs (i + 1) i (by omega) (by omega) (by omega)
            hski' p (Or.inr hp)
        rw [ih (exchInner skip le i xs (i + 1)) stop (i + 1) (by omega)
          (by rw [exchInner_len]; exact hs) p (by rw [hstep]; exact hp), hstep]
    · rfl

theorem exchOuter_sorted {α : Type} [Inhabited α] (skip : α → Bool) (le : α → α → Bool)
    (hrefl : ∀ a, le a a = true)
    (htot : ∀ a b, le a b = false → le b a = true)
    (htrans : ∀ a b c, le a b = true → le b c = true → le a c = true) :
    ∀ (fuel : Nat) (xs : List α) (stop i : Nat), stop ≤ i + fuel → stop ≤ xs.length →
      xs.length ≤ stop + 1 →
      (∀ p q, p < i → p < q → q < xs.length →
        skip (xs.getD p default) = false → skip (xs.getD q default) = false →
        le (xs.getD p default) (xs.getD q default) = true) →
      ∀ p q, p < q → q < xs.length →
        skip ((exchOuter skip le stop xs i).getD p default) = false →
        skip ((exchOuter skip le stop xs i).getD q default) = false →
        le ((exchOuter skip le stop xs i).getD p default)
          ((exchOuter skip le stop xs i).getD q default) = true := by
  intro fuel
  induction fuel with
  | zero =>
    intro xs stop i h hs hs1 hinv p q hpq hq hskp hskq
    rw [exchOuter, if_neg (by omega : ¬ i < stop)] at hskp hskq ⊢
    exact hinv p q (by omega) hpq hq hskp hskq
  | succ f ih =>
    intro xs stop i h hs hs1 hinv p q hpq hq hskp hskq
    rw [exchOuter] at hskp hskq ⊢
    by_cases hi : i < stop
    · rw [if_pos hi] at hskp hskq ⊢
      by_cases hski : skip (xs.getD i default) = true
      · rw [if_pos hski] at hskp hskq ⊢
        refine ih xs stop (i + 1) (by omega) hs hs1 ?_ p q hpq hq hskp hskq
        intro p' q' hp' hpq' hq' hskp' hskq'
        rcases Nat.lt_or_ge p' i with hpi | hpi
        · exact hinv p' q' hpi hpq' hq' hskp' hskq'
        · have : p' = i := by omega
          rw [this] at hskp'
          rw [hski] at hskp'
          cases hskp'
      · rw [if_neg hski] at hskp hskq ⊢
        have hski' : skip (xs.getD i default) = false := by simpa using hski
        have hilen : i < xs.length := by omega
        have hlen' : (exchInner skip le i xs (i + 1)).length = xs.length :=
          exchInner_len skip le xs (i + 1) i
        refine ih (exchInner skip le i xs (i + 1)) stop (i + 1) (by omega)
          (by rw [hlen']; exact hs) (by rw [hlen']; exact hs1) ?_ p q hpq
          (by rw [hlen']; exact hq) hskp hskq
        intro p' q' hp' hpq' hq' hskp' hskq'
        rw [hlen'] at hq'
        rcases Nat.lt_or_ge p' i with hpi | hpi
        · have hstp : (exchInner skip le i xs (i + 1)).getD p' default = xs.getD p' default :=
            exchInner_stable skip le xs.length xs (i + 1) i (by omega) (by omega) hilen
              hski' p' (Or.inl ⟨by omega, by omega⟩)
          rcases Nat.lt_or_ge q' i with hqi | hqi
          · have hstq : (exchInner skip le i xs (i + 1)).getD q' default = xs.getD q' default :=
              exchInner_stable skip le xs.length xs (i + 1) i (by omega) (by omega) hilen
                hski' q' (Or.inl ⟨by omega, by omega⟩)
            rw [hstp, hstq]
            rw [hstp] at hskp'
            rw [hstq] at hskq'
            exact hinv p' q' hpi hpq' hq' hskp' hskq'
          · obtain ⟨q'', hq''1, hq''2, hq''3⟩ :=
              exchInner_mem skip le xs.length xs (i + 1) i (by omega) (by omega) hilen
                hski' q' hqi hq'
            rw [hstp, hq''3]
            rw [hstp] at hskp'
            rw [hq''3] at hskq'
            exact hinv p' q'' hpi (by omega) hq''2 hskp' hskq'
        · have hpi' : p' = i := by omega
          obtain ⟨m1, m2, m3⟩ :=
            exchInner_min skip le hrefl htot htrans xs.length xs (i + 1) i (by omega)
              (by omega) hilen hski'
          rw [hpi']
          exact m3 q' (by omega) hq' hskq'
    · rw [if_neg hi] at hskp hskq ⊢
      exact hinv p q (by omega) hpq hq hskp hskq

/-! ## The three comparison relations are total preorders -/

theorem lexLe_refl {α : Type} (k1 k2 : α → Rat) (a : α) : lexLe k1 k2 a a = true := by
  simp [lexLe]

theorem lexLe_total {α : Type} (k1 k2 : α → Rat) (a b : α) :
    lexLe k1 k2 a b = false → lexLe k1 k2 b a = true := by
  simp only [lexLe, Bool.or_eq_false_iff, Bool.or_eq_true, Bool.and_eq_false_iff,
    Bool.and_eq_true, decide_eq_false_iff_not, decide_eq_true_eq]
  rintro ⟨h1, h2⟩
  rcases lt_trichotomy (k1 a) (k1 b) with h | h | h
  · exact absurd h h1
  · rcases h2 with h2 | h2
    · exact absurd h h2
    · exact Or.inr ⟨h.symm, le_of_not_le h2⟩
  · exact Or.inl h

theorem lexLe_trans {α : Type} (k1 k2 : α → Rat) (a b c : α) :
    lexLe k1 k2 a b = true → lexLe k1 k2 b c = true → lexLe k1 k2 a c = true := by
  simp only [lexLe, Bool.or_eq_true, Bool.and_eq_true, decide_eq_true_eq]
  rintro (h | ⟨h1, h2⟩) (g | ⟨g1, g2⟩)
  · exact Or.inl (h.trans g)
  · exact Or.inl (g1 ▸ h)
  · exact Or.inl (h1 ▸ g)
  · exact Or.inr ⟨h1.trans g1, h2.trans g2⟩

theorem bucketRealLe_refl (a : Bucket) : bucketRealLe a a = true := by
  simp [bucketRealLe]

theorem bucketRealLe_total (a b : Bucket) :
    bucketRealLe a b = false → bucketRealLe b a = true := by
  simp only [bucketRealLe, decide_eq_false_iff_not, decide_eq_true_eq]
  exact fun h => le_of_not_le h

theorem bucketRealLe_trans (a b c : Bucket) :
    bucketRealLe a b = true → bucketRealLe b c = true → bucketRealLe a c = true := by
  simp only [bucketRealLe, decide_eq_true_eq]
  exact fun h g => h.trans g

/-! ## `next_bucket` finds a bucket with spare capacity -/

theorem bstep_lt (c : PackCfg) (res : Nat) (h : res < c.tasks) : bstep c res < c.tasks := by
  simp only [bstep, beq_iff_eq]
  split <;> omega

theorem next_bucket_go_spec (c : PackCfg) (bsk : List Bucket) :
    ∀ (fuel res k : Nat), res < c.tasks → k < c.tasks →
      (bsk.getD k default).size < cap c k →
      (if res < k then k - res else c.tasks - res + k) ≤ fuel →
      ∃ j', next_bucket_go c bsk res fuel = some j' ∧ j' < c.tasks ∧
        (bsk.getD j' default).size < cap c j' := by
  intro fuel
  induction fuel with
  | zero =>
    intro res k h1 h2 h3 h4
    exfalso
    split at h4 <;> omega
  | succ f ih =>
    intro res k h1 h2 h3 h4
    simp only [next_bucket_go]
    by_cases hsp : (bsk.getD (bstep c res) default).size < cap c (bstep c res)
    · exact ⟨bstep c res, by rw [if_pos hsp], bstep_lt c res h1, hsp⟩
    · rw [if_neg hsp]
      have hk : k ≠ bstep c res := by
        intro hh
        rw [← hh] at hsp
        exact hsp h3
      refine ih (bstep c res) k (bstep_lt c res h1) h2 h3 ?_
      have hb : bstep c res = if res + 1 = c.tasks then 0 else res + 1 := by
        simp only [bstep, beq_iff_eq]
      rw [hb] at hk ⊢
      by_cases hw : res + 1 = c.tasks
      · rw [if_pos hw] at hk ⊢
        rw [if_pos (by omega : 0 < k)]
        split at h4 <;> omega
      · rw [if_neg hw] at hk ⊢
        split at h4 <;> split <;> omega

theorem next_bucket_spec (c : PackCfg) (bsk : List Bucket) (j : Nat)
    (hj : j < c.tasks) (k : Nat) (hk : k < c.tasks)
    (hsp : (bsk.getD k default).size < cap c k) :
    ∃ j', next_bucket c bsk j = some j' ∧ j' < c.tasks ∧
      (bsk.getD j' default).size < cap c j' := by
  refine next_bucket_go_spec c bsk c.tasks j k hj hk hsp ?_
  split <;> omega

/-! ## Sum helpers for bucket sizes and capacities -/

theorem sum_map_getD {α : Type} [Inhabited α] (f : α → Nat) :
    ∀ (l : List α), (l.map f).sum =
      ((List.range l.length).map (fun k => f (l.getD k default))).sum := by
  intro l
  induction l with
  | nil => simp
  | cons a t ih =>
    rw [List.map_cons, List.sum_cons, List.length_cons, List.range_succ_eq_map,
      List.map_cons, List.sum_cons, List.map_map, ih]
    rfl

theorem capsSum_eq (c : PackCfg) (h1 : 1 ≤ c.tasks) :
    capsSum c = (c.tasks - 1) * c.bucket_size + c.last_bucket_size := by
  obtain ⟨m, hm⟩ : ∃ m, c.tasks = m + 1 := ⟨c.tasks - 1, by omega⟩
  unfold capsSum
  rw [hm, List.range_succ, List.map_append, List.sum_append]
  have h2 : ∀ k ∈ List.range m, cap c k = c.bucket_size := by
    intro k hkm
    rw [List.mem_range] at hkm
    simp only [cap, beq_iff_eq, hm]
    rw [if_neg (by omega)]
  rw [List.map_congr_left h2]
  have h3 : cap c m = c.last_bucket_size := by
    simp [cap, hm]
  simp [h3, List.map_const', List.sum_replicate, hm, Nat.mul_comm]

theorem spare_exists (c : PackCfg) (bsk : List Bucket)
    (hlen : bsk.length = c.tasks)
    (hcap : ∀ k, k < c.tasks → (bsk.getD k default).size ≤ cap c k)
    (hlt : sumSizes bsk < capsSum c) :
    ∃ k, k < c.tasks ∧ (bsk.getD k default).size < cap c k := by
  by_contra hno
  push_neg at hno
  have heq : ∀ k ∈ List.range c.tasks,
      Bucket.size (bsk.getD k default) = cap c k := by
    intro k hk
    rw [List.mem_range] at hk
    have := hno k hk
    have := hcap k hk
    omega
  have : sumSizes bsk = capsSum c := by
    unfold sumSizes capsSum
    rw [sum_map_getD Bucket.size bsk, hlen]
    exact congrArg List.sum (List.map_congr_left heq)
  omega

theorem sumSizes_set (bsk : List Bucket) (j : Nat) (b : Bucket) (hj : j < bsk.length) :
    sumSizes (bsk.set j b) + (bsk.getD j default).size = sumSizes bsk + b.size := by
  unfold sumSizes
  have hlen : j < (bsk.map Bucket.size).length := by rw [List.length_map]; exact hj
  have hgd : (bsk.map Bucket.size)[j] = (bsk.getD j default).size := by
    rw [List.getElem_map, List.getD_eq_getElem bsk default hj]
  have hS : (List.take j (bsk.map Bucket.size)).sum + ((bsk.map Bucket.size)[j]
      + (List.drop (j + 1) (bsk.map Bucket.size)).sum) = (bsk.map Bucket.size).sum := by
    rw [← List.sum_cons, ← List.drop_eq_getElem_cons hlen, List.sum_take_add_sum_drop]
  rw [List.map_set, List.sum_set, if_pos hlen]
  omega

theorem range_sum_le (f g : Nat → Nat) :
    ∀ n, (∀ k, k < n → f k ≤ g k) →
      ((List.range n).map f).sum ≤ ((List.range n).map g).sum := by
  intro n hle
  refine List.sum_le_sum ?_
  intro k hk
  rw [List.mem_range] at hk
  exact hle k hk

theorem range_sum_eq_pointwise (f g : Nat → Nat) :
    ∀ n, (∀ k, k < n → f k ≤ g k) →
      ((List.range n).map f).sum = ((List.range n).map g).sum →
      ∀ k, k < n → f k = g k := by
  intro n
  induction n with
  | zero => intro _ _ k hk; omega
  | succ m ih =>
    intro hle hsum k hk
    rw [List.range_succ, List.map_append, List.map_append, List.sum_append,
      List.sum_append] at hsum
    simp only [List.map_cons, List.map_nil, List.sum_cons, List.sum_nil] at hsum
    have h1 : ((List.range m).map f).sum ≤ ((List.range m).map g).sum :=
      range_sum_le f g m (fun k' hk' => hle k' (by omega))
    have h2 : f m ≤ g m := hle m (by omega)
    have h3 : ((List.range m).map f).sum = ((List.range m).map g).sum := by omega
    rcases Nat.lt_or_ge k m with hkm | hkm
    · exact ih (fun k' hk' => hle k' (by omega)) h3 k hkm
    · have hkm' : k = m := by omega
      subst hkm'
      omega

/-- When the bucket sizes are pointwise within capacity and their sum fills
the total capacity, every bucket is exactly full. -/
theorem sizes_eq_caps (c : PackCfg) (bsk : List Bucket)
    (hlen : bsk.length = c.tasks)
    (hcap : ∀ k, k < c.tasks → (bsk.getD k default).size ≤ cap c k)
    (hsum : sumSizes bsk = capsSum c) :
    ∀ k, k < c.tasks → (bsk.getD k default).size = cap c k := by
  have hbridge : sumSizes bsk
      = ((List.range c.tasks).map (fun k => (bsk.getD k default).size)).sum := by
    unfold sumSizes
    rw [sum_map_getD Bucket.size bsk, hlen]
  refine range_sum_eq_pointwise _ _ c.tasks hcap ?_
  rw [← hbridge]
  rw [hsum]
  rfl

/-! ## Phase B: total under the entry invariant, out-of-bounds otherwise -/

theorem schedule_zummary_size (b : Bucket) (z : Zummary) :
    (schedule_zummary b z).1.size = b.size + 1 := rfl

theorem schedule_zummary_sched (b : Bucket) (z : Zummary) :
    (schedule_zummary b z).2.scheduled = true := rfl

theorem nsched_set_sched (zs : List Zummary) (p : Nat) (z : Zummary)
    (hp : p < zs.length) (hold : (zs.getD p default).scheduled = false)
    (hnew : z.scheduled = true) :
    nsched (zs.set p z) = nsched zs + 1 := by
  unfold nsched
  rw [List.countP_set _ _ _ _ hp]
  rw [← List.getD_eq_getElem zs default hp]
  rw [hold, hnew]
  simp

theorem nsched_all (zs : List Zummary) (h : nsched zs = zs.length) :
    ∀ z ∈ zs, z.scheduled = true := by
  unfold nsched at h
  exact fun z hz => List.countP_eq_length.mp h z hz

theorem nsched_of_all (zs : List Zummary)
    (h : ∀ p, p < zs.length → (zs.getD p default).scheduled = true) :
    nsched zs = zs.length := by
  unfold nsched
  rw [List.countP_eq_length]
  intro z hz
  obtain ⟨p, hp, hpz⟩ := List.getElem_of_mem hz
  have hs := h p hp
  rw [List.getD_eq_getElem zs default hp] at hs
  rw [← hpz]
  exact hs

/-- Phase B terminates with every record scheduled and every bucket exactly
full, provided the entry state is coherent and at least one record is
still unscheduled. -/
theorem phaseB_go_total (c : PackCfg) :
    ∀ (last : Nat) (zs : List Zummary) (bsk : List Bucket) (j s : Nat),
      bsk.length = c.tasks →
      1 ≤ c.tasks →
      capsSum c = zs.length →
      (∀ k, k < c.tasks → (bsk.getD k default).size ≤ cap c k) →
      sumSizes bsk = s →
      s = nsched zs →
      (∀ p, last ≤ p → p < zs.length → (zs.getD p default).scheduled = true) →
      last ≤ zs.length →
      j < c.tasks →
      (bsk.getD j default).size < cap c j →
      s < zs.length →
      ∃ zs' bsk', phaseB_go c zs bsk j s last = some (zs', bsk', zs.length) ∧
        zs'.length = zs.length ∧ bsk'.length = c.tasks ∧
        (∀ z ∈ zs', z.scheduled = true) ∧
        (∀ k, k < c.tasks → (bsk'.getD k default).size = cap c k) := by
  intro last
  induction last with
  | zero =>
    intro zs bsk j s hlen htasks hcaps hcap hsum hcnt hhigh hlast hj hjsp hlt
    exfalso
    have := nsched_of_all zs (fun p hp => hhigh p (by omega) hp)
    omega
  | succ l ih =>
    intro zs bsk j s hlen htasks hcaps hcap hsum hcnt hhigh hlast hj hjsp hlt
    simp only [phaseB_go]
    by_cases hsch : (zs.getD l default).scheduled = true
    · rw [if_pos hsch]
      refine ih zs bsk j s hlen htasks hcaps hcap hsum hcnt ?_ (by omega) hj hjsp hlt
      intro p hp1 hp2
      rcases Nat.eq_or_lt_of_le hp1 with he | hlt2
      · rw [← he]; exact hsch
      · exact hhigh p (by omega) hp2
    · rw [if_neg hsch]
      have hsch' : (zs.getD l default).scheduled = false := by
        cases hb : (zs.getD l default).scheduled
        · rfl
        · exact absurd hb hsch
      have hllen : l < zs.length := by omega
      have hjb : j < bsk.length := by omega
      have hcnt' : nsched (zs.set l
          (schedule_zummary (bsk.getD j default) (zs.getD l default)).2) = s + 1 := by
        rw [nsched_set_sched zs l _ hllen hsch' (schedule_zummary_sched _ _)]
        omega
      have hsum' : sumSizes (bsk.set j
          (schedule_zummary (bsk.getD j default) (zs.getD l default)).1) = s + 1 := by
        have hss := sumSizes_set bsk j
          (schedule_zummary (bsk.getD j default) (zs.getD l default)).1 hjb
        rw [schedule_zummary_size] at hss
        omega
      have hlen2 : (bsk.set j
          (schedule_zummary (bsk.getD j default) (zs.getD l default)).1).length = c.tasks := by
        rw [List.length_set]; exact hlen
      have hcap' : ∀ k, k < c.tasks → ((bsk.set j
          (schedule_zummary (bsk.getD j default) (zs.getD l default)).1).getD k default).size
          ≤ cap c k := by
        intro k hk
        by_cases hkj : k = j
        · subst hkj
          rw [getD_set_self _ _ _ _ hjb, schedule_zummary_size]
          omega
        · rw [getD_set_ne _ _ _ (fun hh => hkj hh.symm)]
          exact hcap k hk
      have hhigh' : ∀ p, l ≤ p → p < (zs.set l
          (schedule_zummary (bsk.getD j default) (zs.getD l default)).2).length →
          ((zs.set l (schedule_zummary (bsk.getD j default) (zs.getD l default)).2).getD p
            default).scheduled = true := by
        intro p hp1 hp2
        rw [List.length_set] at hp2
        by_cases hpl : p = l
        · subst hpl
          rw [getD_set_self _ _ _ _ hllen]
          exact schedule_zummary_sched _ _
        · rw [getD_set_ne _ _ _ (fun hh => hpl hh.symm)]
          exact hhigh p (by omega) hp2
      by_cases hdone : s + 1 = zs.length
      · rw [if_pos (by rw [beq_iff_eq]; exact hdone)]
        refine ⟨_, _, by rw [hdone], by rw [List.length_set], hlen2, ?_, ?_⟩
        · apply nsched_all
          rw [hcnt', List.length_set]
          omega
        · refine sizes_eq_caps c _ hlen2 hcap' ?_
          rw [hsum', hcaps]
          omega
      · rw [if_neg (by rw [beq_iff_eq]; exact hdone)]
        have hspare : ∃ k, k < c.tasks ∧ ((bsk.set j
            (schedule_zummary (bsk.getD j default) (zs.getD l default)).1).getD k
            default).size < cap c k := by
          refine spare_exists c _ hlen2 hcap' ?_
          rw [hsum', hcaps]
          omega
        obtain ⟨k, hk, hksp⟩ := hspare
        obtain ⟨j', hj'eq, hj'lt, hj'sp⟩ := next_bucket_spec c _ j hj k hk hksp
        rw [hj'eq]
        obtain ⟨zs'', bsk'', hrec, hrl, hrb, hrs, hrc⟩ := ih
          (zs.set l (schedule_zummary (bsk.getD j default) (zs.getD l default)).2)
          (bsk.set j (schedule_zummary (bsk.getD j default) (zs.getD l default)).1)
          j' (s + 1) hlen2 htasks (by rw [List.length_set]; exact hcaps) hcap' hsum'
          hcnt'.symm hhigh' (by rw [List.length_set]; omega) hj'lt hj'sp
          (by rw [List.length_set]; omega)
        rw [List.length_set] at hrec hrl
        exact ⟨zs'', bsk'', hrec, hrl, hrb, hrs, hrc⟩

/-! ## Phase A: the loop leaves a prefix of full buckets -/

theorem nsched_lt (zs : List Zummary) (p : Nat) (hp : p < zs.length)
    (h : (zs.getD p default).scheduled = false) : nsched zs < zs.length := by
  have hle : nsched zs ≤ zs.length := List.countP_le_length _
  rcases Nat.eq_or_lt_of_le hle with he | hlt
  · exfalso
    have hmem : zs.getD p default ∈ zs := by
      rw [List.getD_eq_getElem zs default hp]
      exact List.getElem_mem hp
    have := nsched_all zs he _ hmem
    rw [h] at this
    cases this
  · exact hlt

theorem range_sum_shape (f : Nat → Nat) (bs : Nat) :
    ∀ (t j' : Nat), (∀ k, k < j' → f k = bs) → (∀ k, j' < k → f k = 0) →
      ((List.range t).map f).sum = if t ≤ j' then t * bs else j' * bs + f j' := by
  intro t
  induction t with
  | zero => intro j' _ _; simp
  | succ m ih =>
    intro j' hfull hzero
    rw [List.range_succ, List.map_append, List.sum_append]
    simp only [List.map_cons, List.map_nil, List.sum_cons, List.sum_nil]
    rw [ih j' hfull hzero]
    by_cases hmj : m + 1 ≤ j'
    · rw [if_pos hmj, if_pos (by omega), hfull m (by omega), Nat.succ_mul]
      omega
    · rw [if_neg hmj]
      by_cases hmj2 : m ≤ j'
      · have hje : j' = m := by omega
        rw [if_pos hmj2, hje]
        omega
      · rw [if_neg hmj2, hzero m (by omega)]
        omega

theorem shape_sum (c : PackCfg) (bsk : List Bucket) (s : Nat)
    (hblen : bsk.length = c.tasks) (hbs : 0 < c.bucket_size)
    (hshape : phaseA_shape c bsk s)
    (hsN : s ≤ (c.tasks - 1) * c.bucket_size + c.last_bucket_size)
    (hlbs2 : c.last_bucket_size ≤ c.bucket_size) (htasks : 1 ≤ c.tasks) :
    sumSizes bsk = s := by
  obtain ⟨j', hfull, hzero, hcur, hle⟩ := hshape
  have hbridge : sumSizes bsk
      = ((List.range c.tasks).map (fun k => (bsk.getD k default).size)).sum := by
    unfold sumSizes
    rw [sum_map_getD Bucket.size bsk, hblen]
  rw [hbridge, range_sum_shape _ c.bucket_size c.tasks j' hfull hzero]
  have hmul1 : (c.tasks - 1) * c.bucket_size = c.tasks * c.bucket_size - c.bucket_size :=
    Nat.sub_one_mul _ _
  have hmul2 : c.bucket_size ≤ c.tasks * c.bucket_size :=
    Nat.le_mul_of_pos_left _ (by omega)
  by_cases hta : c.tasks ≤ j'
  · rw [if_pos hta]
    have hmul3 : c.tasks * c.bucket_size ≤ j' * c.bucket_size :=
      Nat.mul_le_mul_right _ hta
    -- s = j' * bs + size_{j'} and s ≤ N ≤ tasks * bs ≤ j' * bs forces
    -- size_{j'} = 0 and j' * bs = tasks * bs = s
    omega
  · rw [if_neg hta]
    exact hcur.symm

theorem shape_caps (c : PackCfg) (bsk : List Bucket) (s : Nat)
    (hblen : bsk.length = c.tasks) (hbs : 0 < c.bucket_size)
    (hshape : phaseA_shape c bsk s)
    (hsN : s ≤ (c.tasks - 1) * c.bucket_size + c.last_bucket_size)
    (hlbs1 : 1 ≤ c.last_bucket_size) (hlbs2 : c.last_bucket_size ≤ c.bucket_size)
    (htasks : 1 ≤ c.tasks) :
    (∀ k, k < c.tasks → (bsk.getD k default).size ≤ cap c k) ∧
    (s < (c.tasks - 1) * c.bucket_size + c.last_bucket_size →
      (bsk.getD (c.tasks - 1) default).size < cap c (c.tasks - 1)) := by
  obtain ⟨j', hfull, hzero, hcur, hle⟩ := hshape
  have hmul1 : (c.tasks - 1) * c.bucket_size = c.tasks * c.bucket_size - c.bucket_size :=
    Nat.sub_one_mul _ _
  have hmul2 : c.bucket_size ≤ c.tasks * c.bucket_size :=
    Nat.le_mul_of_pos_left _ (by omega)
  have hcaplast : cap c (c.tasks - 1) = c.last_bucket_size := by
    simp only [cap, beq_iff_eq]
    rw [if_pos (by omega)]
  constructor
  · intro k hk
    have hcapk : cap c k = c.bucket_size ∨
        (k = c.tasks - 1 ∧ cap c k = c.last_bucket_size) := by
      by_cases hk1 : k + 1 = c.tasks
      · exact Or.inr ⟨by omega, by simp only [cap, beq_iff_eq]; rw [if_pos hk1]⟩
      · exact Or.inl (by simp only [cap, beq_iff_eq]; rw [if_neg hk1])
    rcases Nat.lt_trichotomy k j' with hkj | hkj | hkj
    · -- full bucket
      rw [hfull k hkj]
      rcases hcapk with hc | ⟨hk2, hc⟩
      · omega
      · -- the last bucket is full at bucket_size: only possible when
        -- last_bucket_size = bucket_size
        rw [hc]
        subst hk2
        have hj'ge : c.tasks ≤ j' := by omega
        have hmul3 : c.tasks * c.bucket_size ≤ j' * c.bucket_size :=
          Nat.mul_le_mul_right _ hj'ge
        omega
    · subst hkj
      rcases hcapk with hc | ⟨hk2, hc⟩
      · omega
      · rw [hc]
        have hktasks : k = c.tasks - 1 := hk2
        have hmul4 : (c.tasks - 1) * c.bucket_size = k * c.bucket_size := by rw [hktasks]
        omega
    · rw [hzero k hkj]
      omega
  · intro hlt
    rcases Nat.lt_trichotomy (c.tasks - 1) j' with hkj | hkj | hkj
    · -- j' beyond the last bucket: impossible when s < N
      exfalso
      have hj'ge : c.tasks ≤ j' := by omega
      have hmul3 : c.tasks * c.bucket_size ≤ j' * c.bucket_size :=
        Nat.mul_le_mul_right _ hj'ge
      omega
    · rw [← hkj] at hcur
      rw [hcaplast]
      omega
    · rw [hzero _ hkj, hcaplast]
      omega

theorem phaseA_go_post (c : PackCfg)
    (hbs : 0 < c.bucket_size) (htasks : 1 ≤ c.tasks)
    (hlbs1 : 1 ≤ c.last_bucket_size) (hlbs2 : c.last_bucket_size ≤ c.bucket_size) :
    ∀ (fuel i : Nat) (zs : List Zummary) (bsk : List Bucket) (j s : Nat),
      zs.length ≤ i + fuel →
      (c.tasks - 1) * c.bucket_size + c.last_bucket_size = zs.length →
      bsk.length = c.tasks →
      (∀ k, k < j → (bsk.getD k default).size = c.bucket_size) →
      (∀ k, j < k → (bsk.getD k default).size = 0) →
      s = j * c.bucket_size + (bsk.getD j default).size →
      (j < c.tasks → (bsk.getD j default).size < c.bucket_size) →
      s = nsched zs →
      (∀ p, i ≤ p → p < zs.length → (zs.getD p default).scheduled = false) →
      (phaseA_go c zs bsk j s i).1.length = zs.length ∧
      (phaseA_go c zs bsk j s i).2.1.length = c.tasks ∧
      (phaseA_go c zs bsk j s i).2.2 = nsched (phaseA_go c zs bsk j s i).1 ∧
      phaseA_shape c (phaseA_go c zs bsk j s i).2.1 (phaseA_go c zs bsk j s i).2.2 := by
  intro fuel
  induction fuel with
  | zero =>
    intro i zs bsk j s hf hN hblen hfull hzero hcur hcurlt hcnt hsuf
    rw [phaseA_go, dif_neg (by omega : ¬ i < zs.length)]
    refine ⟨rfl, hblen, hcnt, j, hfull, hzero, hcur, ?_⟩
    by_cases hjt : j < c.tasks
    · exact Nat.le_of_lt (hcurlt hjt)
    · rw [getD_of_le bsk default (by omega)]
      exact Nat.zero_le _
  | succ f ih =>
    intro i zs bsk j s hf hN hblen hfull hzero hcur hcurlt hcnt hsuf
    by_cases hilen : i < zs.length
    · rw [phaseA_go, dif_pos hilen]
      by_cases helig : eligible c (zs.getD i default) = true
      · rw [if_pos helig]
        -- the current record is unscheduled and being placed: j < tasks
        have hunsched : (zs.getD i default).scheduled = false := hsuf i (by omega) hilen
        have hslt : s < zs.length := by
          rw [hcnt]
          exact nsched_lt zs i hilen hunsched
        have hmul1 : (c.tasks - 1) * c.bucket_size = c.tasks * c.bucket_size - c.bucket_size :=
          Nat.sub_one_mul _ _
        have hmul2 : c.bucket_size ≤ c.tasks * c.bucket_size :=
          Nat.le_mul_of_pos_left _ (by omega)
        have hjt : j < c.tasks := by
          by_contra hge
          have hmul3 : c.tasks * c.bucket_size ≤ j * c.bucket_size :=
            Nat.mul_le_mul_right _ (by omega)
          omega
        have hjblen : j < bsk.length := by omega
        have hsize : (schedule_zummary (bsk.getD j default) (zs.getD i default)).1.size
            = (bsk.getD j default).size + 1 := schedule_zummary_size _ _
        have hcnt' : nsched (zs.set i
            (schedule_zummary (bsk.getD j default) (zs.getD i default)).2) = s + 1 := by
          rw [nsched_set_sched zs i _ hilen hunsched (schedule_zummary_sched _ _)]
          omega
        have hsuf' : ∀ p, i + 1 ≤ p → p < (zs.set i
            (schedule_zummary (bsk.getD j default) (zs.getD i default)).2).length →
            ((zs.set i (schedule_zummary (bsk.getD j default)
              (zs.getD i default)).2).getD p default).scheduled = false := by
          intro p hp1 hp2
          rw [List.length_set] at hp2
          rw [getD_set_ne _ _ _ (by omega : i ≠ p)]
          exact hsuf p (by omega) hp2
        by_cases hfullb : c.bucket_size ≤
            (schedule_zummary (bsk.getD j default) (zs.getD i default)).1.size
        · rw [if_pos hfullb]
          rw [hsize] at hfullb
          have hexact : (bsk.getD j default).size + 1 = c.bucket_size := by
            have := hcurlt hjt
            omega
          have hfull' : ∀ k, k < j + 1 → ((bsk.set j
              (schedule_zummary (bsk.getD j default) (zs.getD i default)).1).getD k
                default).size = c.bucket_size := by
            intro k hk
            by_cases hkj : k = j
            · subst hkj
              rw [getD_set_self _ _ _ _ hjblen, hsize]
              omega
            · rw [getD_set_ne _ _ _ (fun hh => hkj hh.symm)]
              exact hfull k (by omega)
          have hzero' : ∀ k, j + 1 < k → ((bsk.set j
              (schedule_zummary (bsk.getD j default) (zs.getD i default)).1).getD k
                default).size = 0 := by
            intro k hk
            rw [getD_set_ne _ _ _ (by omega : j ≠ k)]
            exact hzero k (by omega)
          have hj1zero : ((bsk.set j
              (schedule_zummary (bsk.getD j default) (zs.getD i default)).1).getD (j + 1)
                default).size = 0 := by
            rw [getD_set_ne _ _ _ (by omega : j ≠ j + 1)]
            by_cases hj1 : j + 1 < bsk.length
            · exact hzero (j + 1) (by omega)
            · rw [getD_of_le bsk default (by omega)]
              rfl
          have hcur' : s + 1 = (j + 1) * c.bucket_size + ((bsk.set j
              (schedule_zummary (bsk.getD j default) (zs.getD i default)).1).getD (j + 1)
                default).size := by
            rw [hj1zero, Nat.succ_mul]
            omega
          by_cases hlim : (j + 1 == c.limit) = true
          · rw [if_pos hlim]
            refine ⟨by rw [List.length_set], by rw [List.length_set]; exact hblen,
              by rw [hcnt'], j + 1, hfull', hzero', hcur', by rw [hj1zero]; omega⟩
          · rw [if_neg hlim]
            have hres := ih (i + 1) _ _ (j + 1) (s + 1) (by rw [List.length_set]; omega)
              (by rw [List.length_set]; exact hN) (by rw [List.length_set]; exact hblen)
              hfull' hzero' hcur' (by intro _; rw [hj1zero]; omega) hcnt'.symm hsuf'
            rw [List.length_set] at hres
            exact hres
        · rw [if_neg hfullb]
          rw [hsize] at hfullb
          have hfull' : ∀ k, k < j → ((bsk.set j
              (schedule_zummary (bsk.getD j default) (zs.getD i default)).1).getD k
                default).size = c.bucket_size := by
            intro k hk
            rw [getD_set_ne _ _ _ (by omega : j ≠ k)]
            exact hfull k hk
          have hzero' : ∀ k, j < k → ((bsk.set j
              (schedule_zummary (bsk.getD j default) (zs.getD i default)).1).getD k
                default).size = 0 := by
            intro k hk
            rw [getD_set_ne _ _ _ (by omega : j ≠ k)]
            exact hzero k hk
          have hcur' : s + 1 = j * c.bucket_size + ((bsk.set j
              (schedule_zummary (bsk.getD j default) (zs.getD i default)).1).getD j
                default).size := by
            rw [getD_set_self _ _ _ _ hjblen, hsize]
            omega
          have hres := ih (i + 1) _ _ j (s + 1) (by rw [List.length_set]; omega)
            (by rw [List.length_set]; exact hN) (by rw [List.length_set]; exact hblen)
            hfull' hzero' hcur'
            (by intro _; rw [getD_set_self _ _ _ _ hjblen, hsize]; omega) hcnt'.symm hsuf'
          rw [List.length_set] at hres
          exact hres
      · rw [if_neg helig]
        refine ih (i + 1) zs bsk j s (by omega) hN hblen hfull hzero hcur hcurlt hcnt ?_
        intro p hp1 hp2
        exact hsuf p (by omega) hp2
    · rw [phaseA_go, dif_neg hilen]
      refine ⟨rfl, hblen, hcnt, j, hfull, hzero, hcur, ?_⟩
      by_cases hjt : j < c.tasks
      · exact Nat.le_of_lt (hcurlt hjt)
      · rw [getD_of_le bsk default (by omega)]
        exact Nat.zero_le _

/-- When every record is already scheduled at Phase B entry, the loop walks
`last` all the way down and the final decrement under-runs the array:
no normal exit is reached. -/
theorem phaseB_go_none (c : PackCfg) :
    ∀ (last : Nat) (zs : List Zummary) (bsk : List Bucket) (j s : Nat),
      last ≤ zs.length →
      (∀ p, p < zs.length → (zs.getD p default).scheduled = true) →
      phaseB_go c zs bsk j s last = none := by
  intro last
  induction last with
  | zero => intro zs bsk j s _ _; rfl
  | succ l ih =>
    intro zs bsk j s hlast hall
    simp only [phaseB_go]
    rw [if_pos (hall l (by omega))]
    exact ih zs bsk j s (by omega) hall

/-! ## The derived configuration is arithmetically coherent -/

theorem mkPackCfg_arith (bs f : Nat) (mem : Rat) (n : Nat) (hbs : 0 < bs) (hn : 0 < n) :
    0 < (mkPackCfg bs f mem n).bucket_size ∧ 1 ≤ (mkPackCfg bs f mem n).tasks ∧
    1 ≤ (mkPackCfg bs f mem n).last_bucket_size ∧
    (mkPackCfg bs f mem n).last_bucket_size ≤ (mkPackCfg bs f mem n).bucket_size ∧
    ((mkPackCfg bs f mem n).tasks - 1) * (mkPackCfg bs f mem n).bucket_size
      + (mkPackCfg bs f mem n).last_bucket_size = n := by
  have hdm : bs * (n / bs) + n % bs = n := Nat.div_add_mod n bs
  have hmod : n % bs < bs := Nat.mod_lt n hbs
  simp only [mkPackCfg, tasks_of, last_bucket_size_of, beq_iff_eq]
  by_cases hex : (n / bs) * bs = n
  · rw [if_pos hex, if_pos hex]
    have hq : 1 ≤ n / bs := by
      rcases Nat.eq_zero_or_pos (n / bs) with h0 | h1
      · rw [h0] at hex; omega
      · exact h1
    have hmul : (n / bs - 1) * bs = (n / bs) * bs - bs := Nat.sub_one_mul _ _
    have hble : bs ≤ (n / bs) * bs := Nat.le_mul_of_pos_left _ hq
    refine ⟨hbs, hq, by omega, le_refl bs, by omega⟩
  · rw [if_neg hex, if_neg hex]
    have hcomm : (n / bs) * bs = bs * (n / bs) := Nat.mul_comm _ _
    have hr : n % bs ≠ 0 := by omega
    refine ⟨hbs, Nat.succ_le_succ (Nat.zero_le _), Nat.pos_of_ne_zero hr,
      le_of_lt hmod, ?_⟩
    simp only [Nat.add_sub_cancel]
    omega

/-! ## Wrappers for the three sorts -/

theorem sort_time_perm (zs : List Zummary) : (sort_zummaries_by_time zs).Perm zs :=
  exchOuter_perm _ _ zs.length zs (zs.length - 1) 0 (by omega) (by omega)

theorem sort_memory_perm (zs : List Zummary) : (sort_zummaries_by_memory zs).Perm zs :=
  exchOuter_perm _ _ zs.length zs (zs.length - 1) 0 (by omega) (by omega)

theorem sort_time_len (zs : List Zummary) :
    (sort_zummaries_by_time zs).length = zs.length :=
  exchOuter_length _ _ zs.length zs (zs.length - 1) 0 (by omega)

theorem sort_memory_len (zs : List Zummary) :
    (sort_zummaries_by_memory zs).length = zs.length :=
  exchOuter_length _ _ zs.length zs (zs.length - 1) 0 (by omega)

theorem sort_buckets_perm (bs : List Bucket) : (sort_buckets_by_real bs).Perm bs :=
  exchOuter_perm _ _ bs.length bs bs.length 0 (by omega) (by omega)

theorem sort_buckets_len (bs : List Bucket) :
    (sort_buckets_by_real bs).length = bs.length :=
  exchOuter_length _ _ bs.length bs bs.length 0 (by omega)

/-! ## Phase A with `limit = 0` assigns every eligible record -/

theorem phaseA_go_limit0 (c : PackCfg) (hlim : c.limit = 0) :
    ∀ (fuel i : Nat) (zs : List Zummary) (bsk : List Bucket) (j s : Nat),
      zs.length ≤ i + fuel →
      ∀ p, p < zs.length →
        ((phaseA_go c zs bsk j s i).1.getD p default).scheduled =
          (if i ≤ p then
            ((zs.getD p default).scheduled || eligible c (zs.getD p default))
          else (zs.getD p default).scheduled) := by
  intro fuel
  induction fuel with
  | zero =>
    intro i zs bsk j s hf p hp
    rw [phaseA_go, dif_neg (by omega : ¬ i < zs.length), if_neg (by omega : ¬ i ≤ p)]
  | succ f ih =>
    intro i zs bsk j s hf p hp
    by_cases hilen : i < zs.length
    · rw [phaseA_go, dif_pos hilen]
      by_cases helig : eligible c (zs.getD i default) = true
      · rw [if_pos helig]
        have hnb : (j + 1 == c.limit) = false := by
          rw [hlim]
          simp
        rw [hnb]
        simp only [Bool.false_eq_true, if_false]
        have hkey : ∀ j2 s2, ((phaseA_go c
            (zs.set i (schedule_zummary (bsk.getD j default) (zs.getD i default)).2)
            (bsk.set j (schedule_zummary (bsk.getD j default) (zs.getD i default)).1)
            j2 s2 (i + 1)).1.getD p default).scheduled =
            (if i ≤ p then ((zs.getD p default).scheduled || eligible c (zs.getD p default))
             else (zs.getD p default).scheduled) := by
          intro j2 s2
          rw [ih (i + 1) _ _ j2 s2 (by rw [List.length_set]; omega) p
            (by rw [List.length_set]; omega)]
          by_cases hip : i + 1 ≤ p
          · rw [if_pos hip, if_pos (by omega : i ≤ p),
              getD_set_ne _ _ _ (by omega : i ≠ p)]
          · by_cases hpi : p = i
            · subst hpi
              rw [if_neg hip, if_pos (le_refl p), getD_set_self _ _ _ _ hilen,
                schedule_zummary_sched, helig]
              simp
            · rw [if_neg hip, if_neg (by omega : ¬ i ≤ p),
                getD_set_ne _ _ _ (by omega : i ≠ p)]
        split
        · exact hkey (j + 1) (s + 1)
        · exact hkey j (s + 1)
      · rw [if_neg helig]
        rw [ih (i + 1) zs bsk j s (by omega) p hp]
        by_cases hip : i + 1 ≤ p
        · rw [if_pos hip, if_pos (by omega : i ≤ p)]
        · by_cases hpi : p = i
          · subst hpi
            have helig' : eligible c (zs.getD p default) = false := by
              cases hb : eligible c (zs.getD p default)
              · rfl
              · exact absurd hb helig
            rw [if_neg hip, if_pos (le_refl p), helig']
            simp
          · rw [if_neg hip, if_neg (by omega : ¬ i ≤ p)]
    · rw [phaseA_go, dif_neg hilen, if_neg (by omega : ¬ i ≤ p)]

/-! ## Keep mode fills the buckets in order -/

theorem keep_go_post (c : PackCfg)
    (hbs : 0 < c.bucket_size) (htasks : 1 ≤ c.tasks)
    (hlbs1 : 1 ≤ c.last_bucket_size) (hlbs2 : c.last_bucket_size ≤ c.bucket_size) :
    ∀ (idxs : List Nat) (zs : List Zummary) (bsk : List Bucket) (j s : Nat),
      bsk.length = c.tasks →
      (∀ k, k < j → (bsk.getD k default).size = c.bucket_size) →
      (∀ k, j < k → (bsk.getD k default).size = 0) →
      s = j * c.bucket_size + (bsk.getD j default).size →
      (j < c.tasks → (bsk.getD j default).size < c.bucket_size) →
      s + idxs.length ≤ (c.tasks - 1) * c.bucket_size + c.last_bucket_size →
      (keep_go c zs bsk j s idxs).2.1.length = c.tasks ∧
      (keep_go c zs bsk j s idxs).2.2 = s + idxs.length ∧
      phaseA_shape c (keep_go c zs bsk j s idxs).2.1 (keep_go c zs bsk j s idxs).2.2 := by
  intro idxs
  induction idxs with
  | nil =>
    intro zs bsk j s hblen hfull hzero hcur hcurlt hcount
    refine ⟨hblen, rfl, j, hfull, hzero, hcur, ?_⟩
    show (bsk.getD j default).size ≤ c.bucket_size
    by_cases hjt : j < c.tasks
    · exact Nat.le_of_lt (hcurlt hjt)
    · rw [getD_of_le bsk default (by omega)]
      exact Nat.zero_le _
  | cons bi rest ih =>
    intro zs bsk j s hblen hfull hzero hcur hcurlt hcount
    simp only [keep_go]
    have hmul1 : (c.tasks - 1) * c.bucket_size = c.tasks * c.bucket_size - c.bucket_size :=
      Nat.sub_one_mul _ _
    have hmul2 : c.bucket_size ≤ c.tasks * c.bucket_size :=
      Nat.le_mul_of_pos_left _ (by omega)
    have hjt : j < c.tasks := by
      by_contra hge
      have hmul3 : c.tasks * c.bucket_size ≤ j * c.bucket_size :=
        Nat.mul_le_mul_right _ (by omega)
      simp only [List.length_cons] at hcount
      omega
    have hjblen : j < bsk.length := by omega
    have hsize : (schedule_zummary (bsk.getD j default) (zs.getD bi default)).1.size
        = (bsk.getD j default).size + 1 := schedule_zummary_size _ _
    simp only [List.length_cons] at hcount ⊢
    by_cases hfullb : c.bucket_size ≤
        (schedule_zummary (bsk.getD j default) (zs.getD bi default)).1.size
    · rw [if_pos hfullb]
      rw [hsize] at hfullb
      have hexact : (bsk.getD j default).size + 1 = c.bucket_size := by
        have := hcurlt hjt
        omega
      have hfull' : ∀ k, k < j + 1 → ((bsk.set j
          (schedule_zummary (bsk.getD j default) (zs.getD bi default)).1).getD k
            default).size = c.bucket_size := by
        intro k hk
        by_cases hkj : k = j
        · subst hkj
          rw [getD_set_self _ _ _ _ hjblen, hsize]
          omega
        · rw [getD_set_ne _ _ _ (fun hh => hkj hh.symm)]
          exact hfull k (by omega)
      have hzero' : ∀ k, j + 1 < k → ((bsk.set j
          (schedule_zummary (bsk.getD j default) (zs.getD bi default)).1).getD k
            default).size = 0 := by
        intro k hk
        rw [getD_set_ne _ _ _ (by omega : j ≠ k)]
        exact hzero k (by omega)
      have hj1zero : ((bsk.set j
          (schedule_zummary (bsk.getD j default) (zs.getD bi default)).1).getD (j + 1)
            default).size = 0 := by
        rw [getD_set_ne _ _ _ (by omega : j ≠ j + 1)]
        by_cases hj1 : j + 1 < bsk.length
        · exact hzero (j + 1) (by omega)
        · rw [getD_of_le bsk default (by omega)]
          rfl
      have hres := ih (zs.set bi (schedule_zummary (bsk.getD j default) (zs.getD bi default)).2)
        (bsk.set j (schedule_zummary (bsk.getD j default) (zs.getD bi default)).1)
        (j + 1) (s + 1) (by rw [List.length_set]; exact hblen)
        hfull' hzero'
        (by rw [hj1zero, Nat.succ_mul]; omega)
        (by intro _; rw [hj1zero]; omega)
        (by omega)
      obtain ⟨r1, r2, r3⟩ := hres
      exact ⟨r1, by rw [r2]; omega, r3⟩
    · rw [if_neg hfullb]
      rw [hsize] at hfullb
      have hfull' : ∀ k, k < j → ((bsk.set j
          (schedule_zummary (bsk.getD j default) (zs.getD bi default)).1).getD k
            default).size = c.bucket_size := by
        intro k hk
        rw [getD_set_ne _ _ _ (by omega : j ≠ k)]
        exact hfull k hk
      have hzero' : ∀ k, j < k → ((bsk.set j
          (schedule_zummary (bsk.getD j default) (zs.getD bi default)).1).getD k
            default).size = 0 := by
        intro k hk
        rw [getD_set_ne _ _ _ (by omega : j ≠ k)]
        exact hzero k hk
      have hres := ih (zs.set bi (schedule_zummary (bsk.getD j default) (zs.getD bi default)).2)
        (bsk.set j (schedule_zummary (bsk.getD j default) (zs.getD bi default)).1)
        j (s + 1) (by rw [List.length_set]; exact hblen)
        hfull' hzero'
        (by rw [getD_set_self _ _ _ _ hjblen, hsize]; omega)
        (by intro _; rw [getD_set_self _ _ _ _ hjblen, hsize]; omega)
        (by omega)
      obtain ⟨r1, r2, r3⟩ := hres
      exact ⟨r1, by rw [r2]; omega, r3⟩

/-! ## The composed packer -/

/-- Shared description of the two-phase packer: if Phase A leaves at least
one record unscheduled, packing completes with every record scheduled and
every bucket exactly full; if Phase A scheduled everything, Phase B
under-runs the record array (`none`).  Phase A itself never exceeds any
bucket's capacity. -/
theorem pack_spec (c : PackCfg) (zs : List Zummary)
    (hbs : 0 < c.bucket_size) (htasks : 1 ≤ c.tasks)
    (hlbs1 : 1 ≤ c.last_bucket_size) (hlbs2 : c.last_bucket_size ≤ c.bucket_size)
    (hN : (c.tasks - 1) * c.bucket_size + c.last_bucket_size = zs.length)
    (hunsched : ∀ z ∈ zs, z.scheduled = false) :
    ((phaseA c zs).2.2 < zs.length →
      ∃ zs' bsk', pack c zs = some (zs', bsk', zs.length) ∧
        zs'.length = zs.length ∧ bsk'.length = c.tasks ∧
        (∀ z ∈ zs', z.scheduled = true) ∧
        (∀ k, k < c.tasks → (bsk'.getD k default).size = cap c k)) ∧
    ((phaseA c zs).2.2 = zs.length → pack c zs = none) ∧
    (∀ k, k < c.tasks → ((phaseA c zs).2.1.getD k default).size ≤ cap c k) ∧
    (phaseA c zs).2.2 ≤ zs.length ∧
    (phaseA c zs).1.length = zs.length ∧
    (phaseA c zs).2.1.length = c.tasks ∧
    (phaseA c zs).2.2 = nsched (phaseA c zs).1 := by
  have hsortlen : (sort_zummaries_by_time zs).length = zs.length := sort_time_len zs
  have hsortmem : ∀ z ∈ sort_zummaries_by_time zs, z.scheduled = false := by
    intro z hz
    exact hunsched z ((sort_time_perm zs).mem_iff.mp hz)
  have hreplen : (List.replicate c.tasks bucket0).length = c.tasks :=
    List.length_replicate _ _
  have hrep : ∀ k, ((List.replicate c.tasks bucket0).getD k default) = bucket0 := by
    intro k
    rcases Nat.lt_or_ge k c.tasks with hk | hk
    · rw [List.getD_eq_getElem _ default (by rw [hreplen]; exact hk)]
      rw [List.getElem_replicate]
    · exact getD_of_le _ default (by rw [hreplen]; omega)
  have hcnt0 : 0 = nsched (sort_zummaries_by_time zs) := by
    unfold nsched
    rw [List.countP_eq_zero.mpr]
    intro z hz
    rw [hsortmem z hz]
    simp
  have hsuf0 : ∀ p, 0 ≤ p → p < (sort_zummaries_by_time zs).length →
      ((sort_zummaries_by_time zs).getD p default).scheduled = false := by
    intro p _ hp
    rw [List.getD_eq_getElem _ default hp]
    exact hsortmem _ (List.getElem_mem hp)
  have hpost := phaseA_go_post c hbs htasks hlbs1 hlbs2 (sort_zummaries_by_time zs).length
    0 (sort_zummaries_by_time zs) (List.replicate c.tasks bucket0) 0 0 (by omega)
    (by rw [hsortlen]; exact hN) hreplen
    (fun k hk => absurd hk (by omega))
    (fun k _ => by rw [hrep k]; rfl)
    (by rw [hrep 0]; show (0 : Nat) = 0 * c.bucket_size + 0; omega)
    (fun _ => by rw [hrep 0]; exact hbs)
    hcnt0 hsuf0
  have hA : phaseA c zs
      = phaseA_go c (sort_zummaries_by_time zs) (List.replicate c.tasks bucket0) 0 0 0 := rfl
  rw [← hA] at hpost
  obtain ⟨hA1, hA2, hA3, hA4⟩ := hpost
  rw [hsortlen] at hA1
  have hsle : (phaseA c zs).2.2 ≤ zs.length := by
    rw [hA3, ← hA1]
    exact List.countP_le_length _
  have hcs := capsSum_eq c htasks
  have hcaps := shape_caps c (phaseA c zs).2.1 (phaseA c zs).2.2 hA2 hbs hA4
    (by omega) hlbs1 hlbs2 htasks
  have hmemlen : (sort_zummaries_by_memory (phaseA c zs).1).length = zs.length := by
    rw [sort_memory_len, hA1]
  have hmemcnt : nsched (sort_zummaries_by_memory (phaseA c zs).1)
      = nsched (phaseA c zs).1 := by
    unfold nsched
    exact (sort_memory_perm (phaseA c zs).1).countP_eq _
  have hpack : pack c zs = phaseB_go c (sort_zummaries_by_memory (phaseA c zs).1)
      (phaseA c zs).2.1 (c.tasks - 1) (phaseA c zs).2.2
      (sort_zummaries_by_memory (phaseA c zs).1).length := rfl
  refine ⟨?_, ?_, hcaps.1, hsle, hA1, hA2, hA3⟩
  · intro hlt
    have hsum : sumSizes (phaseA c zs).2.1 = (phaseA c zs).2.2 :=
      shape_sum c _ _ hA2 hbs hA4 (by omega) hlbs2 htasks
    have hspare := hcaps.2 (by omega)
    obtain ⟨zs', bsk', hrun, hl1, hl2, hl3, hl4⟩ :=
      phaseB_go_total c (sort_zummaries_by_memory (phaseA c zs).1).length
        (sort_zummaries_by_memory (phaseA c zs).1) (phaseA c zs).2.1
        (c.tasks - 1) (phaseA c zs).2.2 hA2 htasks (by rw [hmemlen]; omega)
        hcaps.1 hsum (by rw [hmemcnt]; exact hA3)
        (fun p hp1 hp2 => absurd hp2 (by omega))
        (le_refl _) (by omega) hspare (by rw [hmemlen]; omega)
    refine ⟨zs', bsk', ?_, by rw [hl1, hmemlen], hl2, hl3, hl4⟩
    rw [hpack, hrun, hmemlen]
  · intro heq
    rw [hpack]
    refine phaseB_go_none c _ _ _ _ _ (le_refl _) ?_
    intro p hp
    rw [List.getD_eq_getElem _ default hp]
    have hall : ∀ z ∈ (phaseA c zs).1, z.scheduled = true := by
      apply nsched_all
      rw [← hA3, hA1, heq]
    refine hall _ ?_
    exact (sort_memory_perm (phaseA c zs).1).mem_iff.mp (List.getElem_mem hp)

/-! ## Matcher lemmas -/

theorem find_benchmark_isSome (name : String) :
    ∀ bs : List Benchmark,
      (find_benchmark bs name).isSome = true ↔ name ∈ bs.map Benchmark.name := by
  intro bs
  induction bs with
  | nil => simp [find_benchmark]
  | cons b rest ih =>
    simp only [find_benchmark, List.map_cons, List.mem_cons]
    by_cases hb : (b.name == name) = true
    · rw [if_pos hb]
      simp only [Option.isSome_some, true_iff]
      rw [beq_iff_eq] at hb
      exact Or.inl hb.symm
    · rw [if_neg hb]
      rw [beq_iff_eq] at hb
      have hmap : ((find_benchmark rest name).map (fun k => k + 1)).isSome
          = (find_benchmark rest name).isSome := by
        cases find_benchmark rest name <;> rfl
      rw [hmap, ih]
      constructor
      · exact fun h => Or.inr h
      · rintro (h | h)
        · exact absurd h.symm hb
        · exact h

theorem find_benchmark_some (name : String) :
    ∀ (bs : List Benchmark) (bi : Nat), find_benchmark bs name = some bi →
      bi < bs.length ∧ (bs.getD bi default).name = name := by
  intro bs
  induction bs with
  | nil => intro bi h; cases h
  | cons b rest ih =>
    intro bi h
    simp only [find_benchmark] at h
    by_cases hb : (b.name == name) = true
    · rw [if_pos hb] at h
      cases h
      rw [beq_iff_eq] at hb
      exact ⟨by simp, hb⟩
    · rw [if_neg hb] at h
      cases hfb : find_benchmark rest name with
      | none => rw [hfb] at h; cases h
      | some k =>
        rw [hfb] at h
        simp only [Option.map_some', Option.some_inj] at h
        obtain ⟨hk1, hk2⟩ := ih k hfb
        rw [← h]
        exact ⟨by simp only [List.length_cons]; omega, by rw [List.getD_cons_succ]; exact hk2⟩

theorem find_zummary_isSome (name : String) :
    ∀ zs : List Zummary,
      (find_zummary zs name).isSome = true ↔ name ∈ zs.map Zummary.name := by
  intro zs
  induction zs with
  | nil => simp [find_zummary]
  | cons z rest ih =>
    simp only [find_zummary, List.map_cons, List.mem_cons]
    by_cases hb : (z.name == name) = true
    · rw [if_pos hb]
      simp only [Option.isSome_some, true_iff]
      rw [beq_iff_eq] at hb
      exact Or.inl hb.symm
    · rw [if_neg hb]
      rw [beq_iff_eq] at hb
      have hmap : ((find_zummary rest name).map (fun k => k + 1)).isSome
          = (find_zummary rest name).isSome := by
        cases find_zummary rest name <;> rfl
      rw [hmap, ih]
      constructor
      · exact fun h => Or.inr h
      · rintro (h | h)
        · exact absurd h.symm hb
        · exact h

theorem find_zummary_some (name : String) :
    ∀ (zs : List Zummary) (zi : Nat), find_zummary zs name = some zi →
      zi < zs.length ∧ (zs.getD zi default).name = name := by
  intro zs
  induction zs with
  | nil => intro zi h; cases h
  | cons z rest ih =>
    intro zi h
    simp only [find_zummary] at h
    by_cases hb : (z.name == name) = true
    · rw [if_pos hb] at h
      cases h
      rw [beq_iff_eq] at hb
      exact ⟨by simp, hb⟩
    · rw [if_neg hb] at h
      cases hfb : find_zummary rest name with
      | none => rw [hfb] at h; cases h
      | some k =>
        rw [hfb] at h
        simp only [Option.map_some', Option.some_inj] at h
        obtain ⟨hk1, hk2⟩ := ih k hfb
        rw [← h]
        exact ⟨by simp only [List.length_cons]; omega, by rw [List.getD_cons_succ]; exact hk2⟩

theorem link_zummaries_isSome (bs : List Benchmark) :
    ∀ zs : List Zummary, (link_zummaries bs zs).isSome = true ↔
      ∀ z ∈ zs, (find_benchmark bs z.name).isSome = true := by
  intro zs
  induction zs with
  | nil => simp [link_zummaries]
  | cons z rest ih =>
    simp only [link_zummaries]
    cases hfb : find_benchmark bs z.name with
    | none =>
      simp only [Option.isSome_none]
      constructor
      · intro h; cases h
      · intro h
        have := h z (by simp)
        rw [hfb] at this
        cases this
    | some bi =>
      cases hlr : link_zummaries bs rest with
      | none =>
        simp only [Option.isSome_none]
        constructor
        · intro h; cases h
        · intro h
          have : (link_zummaries bs rest).isSome = true := by
            rw [ih]
            intro z' hz'
            exact h z' (by simp [hz'])
          rw [hlr] at this
          cases this
      | some rest' =>
        simp only [Option.isSome_some, true_iff]
        intro z' hz'
        rcases List.mem_cons.mp hz' with he | hm
        · rw [he, hfb]; rfl
        · have : (link_zummaries bs rest).isSome = true := by rw [hlr]; rfl
          rw [ih] at this
          exact this z' hm

theorem link_zummaries_get (bs : List Benchmark) :
    ∀ (zs zs' : List Zummary), link_zummaries bs zs = some zs' →
      zs'.length = zs.length ∧
      ∀ p, p < zs.length → ∃ bi,
        find_benchmark bs ((zs.getD p default).name) = some bi ∧
        zs'.getD p default =
          { zs.getD p default with benchmark := some bi, scheduled := false } := by
  intro zs
  induction zs with
  | nil =>
    intro zs' h
    simp only [link_zummaries, Option.some_inj] at h
    rw [← h]
    exact ⟨rfl, fun p hp => absurd hp (by simp)⟩
  | cons z rest ih =>
    intro zs' h
    simp only [link_zummaries] at h
    cases hfb : find_benchmark bs z.name with
    | none => rw [hfb] at h; cases h
    | some bi =>
      rw [hfb] at h
      cases hlr : link_zummaries bs rest with
      | none => rw [hlr] at h; cases h
      | some rest' =>
        rw [hlr] at h
        simp only [Option.some_inj] at h
        obtain ⟨ihl, ihp⟩ := ih rest' hlr
        rw [← h]
        refine ⟨by simp [ihl], ?_⟩
        intro p hp
        cases p with
        | zero =>
          refine ⟨bi, ?_, ?_⟩
          · rw [List.getD_cons_zero]; exact hfb
          · rw [List.getD_cons_zero, List.getD_cons_zero]
        | succ q =>
          rw [List.getD_cons_succ, List.getD_cons_succ]
          exact ihp q (by simp only [List.length_cons] at hp; omega)

theorem link_benchmarks_isSome (zs : List Zummary) :
    ∀ bs : List Benchmark, (link_benchmarks zs bs).isSome = true ↔
      ∀ b ∈ bs, (find_zummary zs b.name).isSome = true := by
  intro bs
  induction bs with
  | nil => simp [link_benchmarks]
  | cons b rest ih =>
    simp only [link_benchmarks]
    cases hfb : find_zummary zs b.name with
    | none =>
      simp only [Option.isSome_none]
      constructor
      · intro h; cases h
      · intro h
        have := h b (by simp)
        rw [hfb] at this
        cases this
    | some zi =>
      cases hlr : link_benchmarks zs rest with
      | none =>
        simp only [Option.isSome_none]
        constructor
        · intro h; cases h
        · intro h
          have : (link_benchmarks zs rest).isSome = true := by
            rw [ih]
            intro b' hb'
            exact h b' (by simp [hb'])
          rw [hlr] at this
          cases this
      | some rest' =>
        simp only [Option.isSome_some, true_iff]
        intro b' hb'
        rcases List.mem_cons.mp hb' with he | hm
        · rw [he, hfb]; rfl
        · have : (link_benchmarks zs rest).isSome = true := by rw [hlr]; rfl
          rw [ih] at this
          exact this b' hm

theorem link_benchmarks_get (zs : List Zummary) :
    ∀ (bs bs' : List Benchmark), link_benchmarks zs bs = some bs' →
      bs'.length = bs.length ∧
      ∀ p, p < bs.length → ∃ zi,
        find_zummary zs ((bs.getD p default).name) = some zi ∧
        bs'.getD p default = { bs.getD p default with zummary := some zi } := by
  intro bs
  induction bs with
  | nil =>
    intro bs' h
    simp only [link_benchmarks, Option.some_inj] at h
    rw [← h]
    exact ⟨rfl, fun p hp => absurd hp (by simp)⟩
  | cons b rest ih =>
    intro bs' h
    simp only [link_benchmarks] at h
    cases hfb : find_zummary zs b.name with
    | none => rw [hfb] at h; cases h
    | some zi =>
      rw [hfb] at h
      cases hlr : link_benchmarks zs rest with
      | none => rw [hlr] at h; cases h
      | some rest' =>
        rw [hlr] at h
        simp only [Option.some_inj] at h
        obtain ⟨ihl, ihp⟩ := ih rest' hlr
        rw [← h]
        refine ⟨by simp [ihl], ?_⟩
        intro p hp
        cases p with
        | zero =>
          refine ⟨zi, ?_, ?_⟩
          · rw [List.getD_cons_zero]; exact hfb
          · rw [List.getD_cons_zero, List.getD_cons_zero]
        | succ q =>
          rw [List.getD_cons_succ, List.getD_cons_succ]
          exact ihp q (by simp only [List.length_cons] at hp; omega)

/-! ## Node scheduler lemmas -/

theorem pick_go_spec :
    ∀ (fuel : Nat) (nodes : List (Option Bucket)) (j : Nat)
      (best : Option (Nat × Bucket)),
      j + fuel = nodes.length →
      0 < nodes.length →
      (best = none → j = 0) →
      (∀ pj pb, best = some (pj, pb) → pj < j ∧ j ≤ nodes.length ∧
        nodes.getD pj none = some pb ∧
        (∀ k, k < j → ∀ b, nodes.getD k none = some b →
          pb.«end» ≤ b.«end» ∧ (k < pj → pb.«end» < b.«end»)) ∧
        (∀ k, k < j → nodes.getD k none ≠ none)) →
      (pick_go nodes fuel j best).1 < nodes.length ∧
      nodes.getD (pick_go nodes fuel j best).1 none = (pick_go nodes fuel j best).2 ∧
      ((pick_go nodes fuel j best).2 = none →
        ∀ k, k < (pick_go nodes fuel j best).1 → nodes.getD k none ≠ none) ∧
      (∀ rb, (pick_go nodes fuel j best).2 = some rb →
        (∀ k, k < nodes.length → ∀ b, nodes.getD k none = some b →
          rb.«end» ≤ b.«end» ∧ (k < (pick_go nodes fuel j best).1 → rb.«end» < b.«end»)) ∧
        (∀ k, k < nodes.length → nodes.getD k none ≠ none)) := by
  intro fuel
  induction fuel with
  | zero =>
    intro nodes j best hf hn hb0 hbs
    cases best with
    | none =>
      exfalso
      have := hb0 rfl
      omega
    | some pb =>
      simp only [pick_go]
      obtain ⟨h1, h2, h3, h4, h5⟩ := hbs pb.1 pb.2 rfl
      refine ⟨by omega, h3, ?_, ?_⟩
      · intro h
        cases h
      · intro rb hrb
        simp only [Option.some_inj] at hrb
        rw [← hrb]
        exact ⟨fun k hk b hb => h4 k (by omega) b hb, fun k hk => h5 k (by omega)⟩
  | succ f ih =>
    intro nodes j best hf hn hb0 hbs
    have hjlen : j < nodes.length := by omega
    simp only [pick_go]
    cases hnj : nodes.getD j none with
    | none =>
      simp only []
      refine ⟨hjlen, hnj, ?_, ?_⟩
      · intro _ k hk
        cases best with
        | none =>
          have := hb0 rfl
          omega
        | some pb =>
          obtain ⟨_, _, _, _, h5⟩ := hbs pb.1 pb.2 rfl
          exact h5 k hk
      · intro rb hrb
        cases hrb
    | some prev =>
      simp only []
      cases best with
      | none =>
        simp only []
        have hj0 := hb0 rfl
        subst hj0
        refine ih nodes 1 (some (0, prev)) (by omega) hn (by intro h; cases h) ?_
        intro pj pb hpb
        simp only [Option.some_inj, Prod.mk.injEq] at hpb
        obtain ⟨hpj, hpb2⟩ := hpb
        rw [← hpj, ← hpb2]
        refine ⟨by omega, by omega, hnj, ?_, ?_⟩
        · intro k hk b hb
          have hk0 : k = 0 := by omega
          subst hk0
          rw [hnj] at hb
          simp only [Option.some_inj] at hb
          rw [← hb]
          exact ⟨le_refl _, by omega⟩
        · intro k hk
          have hk0 : k = 0 := by omega
          subst hk0
          rw [hnj]
          intro h
          cases h
      | some pb =>
        simp only []
        obtain ⟨h1, h2, h3, h4, h5⟩ := hbs pb.1 pb.2 rfl
        by_cases hlt : prev.«end» < pb.2.«end»
        · rw [if_pos hlt]
          refine ih nodes (j + 1) (some (j, prev)) (by omega) hn
            (by intro h; cases h) ?_
          intro pj pb' hpb
          simp only [Option.some_inj, Prod.mk.injEq] at hpb
          obtain ⟨hpj, hpb2⟩ := hpb
          rw [← hpj, ← hpb2]
          refine ⟨by omega, by omega, hnj, ?_, ?_⟩
          · intro k hk b hb
            by_cases hkj : k = j
            · subst hkj
              rw [hnj] at hb
              simp only [Option.some_inj] at hb
              rw [← hb]
              exact ⟨le_refl _, by omega⟩
            · have hkj' : k < j := by omega
              obtain ⟨hle, _⟩ := h4 k hkj' b hb
              exact ⟨le_of_lt (lt_of_lt_of_le hlt hle), fun _ =>
                lt_of_lt_of_le hlt hle⟩
          · intro k hk
            by_cases hkj : k = j
            · subst hkj
              rw [hnj]
              intro h
              cases h
            · exact h5 k (by omega)
        · rw [if_neg hlt]
          have hge : pb.2.«end» ≤ prev.«end» := le_of_not_lt hlt
          refine ih nodes (j + 1) (some pb) (by omega) hn
            (by intro h; cases h) ?_
          intro pj pb' hpb
          simp only [Option.some_inj] at hpb
          have hpj : pj = pb.1 := by rw [hpb]
          have hpb2 : pb' = pb.2 := by rw [hpb]
          rw [hpj, hpb2]
          refine ⟨by omega, by omega, h3, ?_, ?_⟩
          · intro k hk b hb
            by_cases hkj : k = j
            · subst hkj
              rw [hnj] at hb
              simp only [Option.some_inj] at hb
              rw [← hb]
              exact ⟨hge, fun hkpj => absurd hkpj (by omega)⟩
            · exact h4 k (by omega) b hb
          · intro k hk
            by_cases hkj : k = j
            · subst hkj
              rw [hnj]
              intro h
              cases h
            · exact h5 k (by omega)

/-- Specification of the node scan: the chosen slot is in range and holds
exactly the returned bucket; an idle pick is the first idle slot; a busy
pick means no slot is idle and the pick has the strictly smallest end
among lower indices and the smallest end overall. -/
theorem pick_node_spec (nodes : List (Option Bucket)) (hn : 0 < nodes.length) :
    (pick_node nodes).1 < nodes.length ∧
    nodes.getD (pick_node nodes).1 none = (pick_node nodes).2 ∧
    ((pick_node nodes).2 = none →
      ∀ k, k < (pick_node nodes).1 → nodes.getD k none ≠ none) ∧
    (∀ rb, (pick_node nodes).2 = some rb →
      (∀ k, k < nodes.length → ∀ b, nodes.getD k none = some b →
        rb.«end» ≤ b.«end» ∧ (k < (pick_node nodes).1 → rb.«end» < b.«end»)) ∧
      (∀ k, k < nodes.length → nodes.getD k none ≠ none)) :=
  pick_go_spec nodes.length nodes 0 none (by omega) hn (fun _ => rfl)
    (fun pj pb h => by cases h)

theorem foldl_latency_spec :
    ∀ (tr : List Assign) (init : Rat),
      init ≤ tr.foldl (fun acc a => if acc < a.«end» then a.«end» else acc) init ∧
      (∀ a ∈ tr, a.«end» ≤
        tr.foldl (fun acc a => if acc < a.«end» then a.«end» else acc) init) ∧
      (tr.foldl (fun acc a => if acc < a.«end» then a.«end» else acc) init = init ∨
        ∃ a ∈ tr, tr.foldl (fun acc a => if acc < a.«end» then a.«end» else acc) init
          = a.«end») := by
  intro tr
  induction tr with
  | nil => intro init; exact ⟨le_refl _, fun a ha => absurd ha (by simp), Or.inl rfl⟩
  | cons a rest ih =>
    intro init
    simp only [List.foldl_cons]
    obtain ⟨ih1, ih2, ih3⟩ := ih (if init < a.«end» then a.«end» else init)
    have hstep : init ≤ (if init < a.«end» then a.«end» else init) := by
      split
      · exact le_of_lt (by assumption)
      · exact le_refl _
    have hstepa : a.«end» ≤ (if init < a.«end» then a.«end» else init) := by
      split
      · exact le_refl _
      · exact le_of_not_lt (by assumption)
    refine ⟨le_trans hstep ih1, ?_, ?_⟩
    · intro a' ha'
      rcases List.mem_cons.mp ha' with he | hm
      · rw [he]
        exact le_trans hstepa ih1
      · exact ih2 a' hm
    · rcases ih3 with he | ⟨a', ha', he⟩
      · by_cases hlt : init < a.«end»
        · rw [if_pos hlt] at he ⊢
          exact Or.inr ⟨a, by simp, he⟩
        · rw [if_neg hlt] at he ⊢
          exact Or.inl he
      · exact Or.inr ⟨a', by simp [ha'], he⟩

/-- Invariant of the node-scheduling loop: lengths are preserved, each
output bucket is its input bucket with `start`/`end` filled in so that
`end = start + real`, every chosen node index is in range, the entries
assigned to one node chain start-to-end, and the final latency is the
running maximum of the assignment end times. -/
theorem run_nodes_go_spec :
    ∀ (rest : List Bucket) (nodes : List (Option Bucket)) (lat : Rat),
      0 < nodes.length →
      (run_nodes_go nodes lat rest).1.length = nodes.length ∧
      (run_nodes_go nodes lat rest).2.2.1.length = rest.length ∧
      (run_nodes_go nodes lat rest).2.2.2.length = rest.length ∧
      (∀ i, i < rest.length →
        (run_nodes_go nodes lat rest).2.2.1.getD i default =
          { rest.getD i default with
              start := ((run_nodes_go nodes lat rest).2.2.2.getD i default).start,
              «end» := ((run_nodes_go nodes lat rest).2.2.2.getD i default).«end» } ∧
        ((run_nodes_go nodes lat rest).2.2.2.getD i default).«end» =
          ((run_nodes_go nodes lat rest).2.2.2.getD i default).start
            + (rest.getD i default).real ∧
        ((run_nodes_go nodes lat rest).2.2.2.getD i default).pos < nodes.length) ∧
      (∀ p, chain_from (node_end (nodes.getD p none))
        ((run_nodes_go nodes lat rest).2.2.2.filter (fun a => a.pos == p))) ∧
      (run_nodes_go nodes lat rest).2.1 =
        (run_nodes_go nodes lat rest).2.2.2.foldl
          (fun acc a => if acc < a.«end» then a.«end» else acc) lat := by
  intro rest
  induction rest with
  | nil =>
    intro nodes lat hn
    refine ⟨rfl, rfl, rfl, ?_, ?_, rfl⟩
    · intro i hi
      exact absurd hi (by simp)
    · intro p
      show chain_from (node_end (nodes.getD p none)) (List.filter (fun a => a.pos == p) [])
      simp only [List.filter_nil]
      exact trivial
  | cons b rest ih =>
    intro nodes lat hn
    obtain ⟨hp1, hp2, _, _⟩ := pick_node_spec nodes hn
    simp only [run_nodes_go]
    have hsetlen : (nodes.set (pick_node nodes).1
        (some { b with start := node_end (pick_node nodes).2, «end» := node_end (pick_node nodes).2 + b.real })).length = nodes.length :=
      List.length_set _ _ _
    obtain ⟨ih1, ih2, ih3, ih4, ih5, ih6⟩ := ih
      (nodes.set (pick_node nodes).1
        (some { b with start := node_end (pick_node nodes).2, «end» := node_end (pick_node nodes).2 + b.real }))
      (if lat < node_end (pick_node nodes).2 + b.real
        then node_end (pick_node nodes).2 + b.real else lat)
      (by rw [hsetlen]; exact hn)
    refine ⟨by rw [ih1, hsetlen], by simp [ih2], by simp [ih3], ?_, ?_, ?_⟩
    · intro i hi
      cases i with
      | zero =>
        exact ⟨rfl, rfl, hp1⟩
      | succ q =>
        simp only [List.getD_cons_succ]
        have hq : q < rest.length := by
          simp only [List.length_cons] at hi
          omega
        have hq4 := ih4 q hq
        rw [hsetlen] at hq4
        exact hq4
    · intro p
      rw [List.filter_cons]
      by_cases hpp : ((⟨(pick_node nodes).1, node_end (pick_node nodes).2,
          node_end (pick_node nodes).2 + b.real⟩ : Assign).pos == p) = true
      · rw [if_pos hpp]
        have hpeq : (pick_node nodes).1 = p := by
          simpa using hpp
        refine ⟨?_, ?_⟩
        · show node_end (pick_node nodes).2 = node_end (nodes.getD p none)
          rw [← hpeq, hp2]
        · have hch := ih5 p
          rw [← hpeq] at hch ⊢
          rw [getD_set_self _ _ _ _ hp1] at hch
          exact hch
      · rw [if_neg hpp]
        have hpne : (pick_node nodes).1 ≠ p := by
          simpa using hpp
        have hch := ih5 p
        rw [getD_set_ne _ _ _ hpne] at hch
        exact hch
    · rw [List.foldl_cons]
      exact ih6

/-! ## Remaining small helpers -/

theorem replicate_getD {α : Type} [Inhabited α] (x : α) (n k : Nat) (hx : x = default) :
    (List.replicate n x).getD k default = x := by
  rcases Nat.lt_or_ge k n with hk | hk
  · rw [List.getD_eq_getElem _ default (by rw [List.length_replicate]; exact hk)]
    rw [List.getElem_replicate]
  · rw [getD_of_le _ default (by rw [List.length_replicate]; omega), hx]

/-- Any `some` result of the Phase B loop has the counter at the full
record count, and (when the counter was in sync) every record scheduled:
the only exit producing a result is the break guarded by
`scheduled == size_zummaries`. -/
theorem phaseB_go_complete (c : PackCfg) :
    ∀ (last : Nat) (zs : List Zummary) (bsk : List Bucket) (j s : Nat)
      (out : List Zummary × List Bucket × Nat),
      last ≤ zs.length → s = nsched zs →
      phaseB_go c zs bsk j s last = some out →
      out.2.2 = out.1.length ∧ (∀ z ∈ out.1, z.scheduled = true) := by
  intro last
  induction last with
  | zero => intro zs bsk j s out _ _ h; cases h
  | succ l ih =>
    intro zs bsk j s out hlast hcnt h
    simp only [phaseB_go] at h
    by_cases hsch : ((zs.getD l default).scheduled : Prop)
    · rw [if_pos hsch] at h
      exact ih zs bsk j s out (by omega) hcnt h
    · rw [if_neg hsch] at h
      have hsch' : (zs.getD l default).scheduled = false := by
        cases hb : (zs.getD l default).scheduled
        · rfl
        · exact absurd hb hsch
      have hcnt' : s + 1 = nsched (zs.set l
          (schedule_zummary (bsk.getD j default) (zs.getD l default)).2) := by
        rw [nsched_set_sched zs l _ (by omega) hsch' (schedule_zummary_sched _ _)]
        omega
      by_cases hdone : ((s + 1 == zs.length) : Prop)
      · rw [if_pos hdone] at h
        simp only [Option.some_inj] at h
        rw [beq_iff_eq] at hdone
        rw [← h]
        constructor
        · simp only [List.length_set]
          exact hdone
        · apply nsched_all
          rw [← hcnt', List.length_set]
          omega
      · rw [if_neg hdone] at h
        cases hnb : next_bucket c (bsk.set j
            (schedule_zummary (bsk.getD j default) (zs.getD l default)).1) j with
        | none => rw [hnb] at h; cases h
        | some j' =>
          rw [hnb] at h
          refine ih _ _ j' (s + 1) out ?_ hcnt' h
          rw [List.length_set]
          omega

theorem foldl_add_real :
    ∀ (l : List Bucket) (init : Rat),
      l.foldl (fun acc b => acc + b.real) init = init + (l.map Bucket.real).sum := by
  intro l
  induction l with
  | nil => intro init; simp
  | cons b t ih =>
    intro init
    rw [List.foldl_cons, ih, List.map_cons, List.sum_cons]
    ring

/-- `tasks_of` computes the ceiling of `n / bs`. -/
theorem tasks_of_ceil (n bs : Nat) (hbs : 0 < bs) (hn : 0 < n) :
    tasks_of n bs = (n + bs - 1) / bs := by
  have hdm : bs * (n / bs) + n % bs = n := Nat.div_add_mod n bs
  have hmod : n % bs < bs := Nat.mod_lt n hbs
  unfold tasks_of
  by_cases hex : ((n / bs) * bs == n) = true
  · rw [if_pos hex]
    rw [beq_iff_eq] at hex
    have hbsn : bs * (n / bs) = n := by rw [Nat.mul_comm]; exact hex
    have heq : n + bs - 1 = bs * (n / bs) + (bs - 1) := by
      rw [hbsn, Nat.add_sub_assoc hbs]
    rw [heq, Nat.mul_add_div hbs, Nat.div_eq_of_lt (show bs - 1 < bs by omega),
      Nat.add_zero]
  · rw [if_neg hex]
    have hex' : (n / bs) * bs ≠ n := fun hh => hex (beq_iff_eq.mpr hh)
    have hcomm : (n / bs) * bs = bs * (n / bs) := Nat.mul_comm _ _
    have hr : 1 ≤ n % bs := by
      rcases Nat.eq_zero_or_pos (n % bs) with h0 | h1
      · exfalso
        exact hex' (by omega)
      · exact h1
    have heq : n + bs - 1 = bs * (n / bs + 1) + (n % bs - 1) := by
      have hms : bs * (n / bs + 1) = bs * (n / bs) + bs := Nat.mul_succ _ _
      omega
    rw [heq, Nat.mul_add_div hbs, Nat.div_eq_of_lt (show n % bs - 1 < bs by omega),
      Nat.add_zero]

/-! # The claims -/

/-- C1: on the 3-record input {A: wall=5, mem=10, status=10},
{B: wall=2, mem=50, status=10}, {C: wall=9, mem=5, status=20} with
bucket_size = 1, fast_bucket_fraction = 100 and fast_bucket_memory = 100,
Phase A does assign B, A, C to buckets 0, 1, 2 with makespans [2, 5, 9] and
schedules all three records — but the packer does not produce these buckets
as its result: with nothing left for Phase B, the Phase B loop decrements
its index past 0 and reads out of the record array (modelled by `none`)
instead of terminating with the claimed buckets. -/
theorem C1_spec_example_run :
    ((phaseA exampleCfg [zA, zB, zC]).2.1.map (fun b => b.zummaries.map Zummary.name))
      = [["B"], ["A"], ["C"]] ∧
    ((phaseA exampleCfg [zA, zB, zC]).2.1.map Bucket.real) = [2, 5, 9] ∧
    (phaseA exampleCfg [zA, zB, zC]).2.2 = 3 ∧
    pack exampleCfg [zA, zB, zC] = none := by
  refine ⟨?_, ?_, ?_, ?_⟩ <;>
    simp +decide [pack, phaseA, phaseA_go, phaseB, phaseB_go, sort_zummaries_by_time,
      sort_zummaries_by_memory, exchOuter, exchInner, lexLe, eligible, schedule_zummary,
      bstep, next_bucket, next_bucket_go, cap, bucket0, exampleCfg, mkPackCfg, tasks_of,
      last_bucket_size_of, zA, zB, zC]

/-- C2: for every valid input, if at least one record is still unscheduled
when Phase B begins (the scheduled counter after Phase A is below the
record count), then the Phase B loop performs only in-bounds accesses and
terminates with scheduled == N — the packer returns a result in which
every record is scheduled; and this precondition is necessary: when
Phase A already scheduled every record, the loop decrements its backward
index past 0 and reads outside the record array (modelled by `none`). -/
theorem C2_phaseB_safety (bs f : Nat) (mem : Rat) (zs : List Zummary)
    (hbs : 0 < bs) (hzs : zs ≠ []) (hunsched : ∀ z ∈ zs, z.scheduled = false) :
    ((phaseA (mkPackCfg bs f mem zs.length) zs).2.2 < zs.length →
      ∃ zs' bsk', pack (mkPackCfg bs f mem zs.length) zs = some (zs', bsk', zs.length) ∧
        (∀ z ∈ zs', z.scheduled = true)) ∧
    ((phaseA (mkPackCfg bs f mem zs.length) zs).2.2 = zs.length →
      pack (mkPackCfg bs f mem zs.length) zs = none) := by
  have hn : 0 < zs.length := List.length_pos.mpr hzs
  obtain ⟨a1, a2, a3, a4, a5⟩ := mkPackCfg_arith bs f mem zs.length hbs hn
  obtain ⟨h1, h2, _⟩ := pack_spec (mkPackCfg bs f mem zs.length) zs a1 a2 a3 a4 a5 hunsched
  refine ⟨fun hlt => ?_, h2⟩
  obtain ⟨zs', bsk', hp, _, _, hall, _⟩ := h1 hlt
  exact ⟨zs', bsk', hp, hall⟩

/-- Witness for C2 at the spec example input, where Phase A schedules
everything: Phase B under-runs the array. -/
theorem C2_witness : pack exampleCfg [zA, zB, zC] = none := by
  have h := C2_phaseB_safety 1 100 100 [zA, zB, zC] (by omega) (by simp) (by decide)
  exact h.2 (by
    simp +decide [phaseA, phaseA_go, sort_zummaries_by_time, exchOuter, exchInner,
      lexLe, eligible, schedule_zummary, cap, bucket0, mkPackCfg, tasks_of,
      last_bucket_size_of, zA, zB, zC])

/-- C3 counterexample: with bucket_size 64, fraction 50 and a single
record, `limit = 50 * 1 / 100 = 0`, yet Phase A schedules the (eligible)
record into bucket 0 — it does not leave every record to Phase B. -/
theorem C3_counterexample :
    c3cfg.limit = 0 ∧ (phaseA c3cfg [z1]).2.2 = 1 ∧
    ((phaseA c3cfg [z1]).2.1.getD 0 default).size = 1 := by
  refine ⟨rfl, ?_, ?_⟩ <;>
    simp +decide [phaseA, phaseA_go, sort_zummaries_by_time, exchOuter, exchInner,
      lexLe, eligible, schedule_zummary, cap, bucket0, c3cfg, mkPackCfg, tasks_of,
      last_bucket_size_of, z1, zA]

/-- C3 amended: Phase A stops only when, right after filling a bucket, the
pre-incremented bucket index reaches `limit`, or when the sorted sequence
is exhausted.  Since `j` starts at 0 and is incremented before the
comparison, `limit = 0` can never be reached: instead of assigning
nothing, Phase A walks the entire sequence and assigns every eligible
record (success status and memory within the threshold), leaving only the
ineligible ones for Phase B. -/
theorem C3_limit0_schedules_eligible (c : PackCfg) (zs : List Zummary)
    (hlim : c.limit = 0) (hunsched : ∀ z ∈ zs, z.scheduled = false) :
    ∀ p, p < zs.length →
      ((phaseA c zs).1.getD p default).scheduled
        = eligible c ((sort_zummaries_by_time zs).getD p default) := by
  intro p hp
  have hsl : (sort_zummaries_by_time zs).length = zs.length := sort_time_len zs
  have h := phaseA_go_limit0 c hlim (sort_zummaries_by_time zs).length 0
    (sort_zummaries_by_time zs) (List.replicate c.tasks bucket0) 0 0 (by omega) p
    (by omega)
  have hA : phaseA c zs = phaseA_go c (sort_zummaries_by_time zs)
      (List.replicate c.tasks bucket0) 0 0 0 := rfl
  rw [hA, h, if_pos (Nat.zero_le p)]
  have hus : ((sort_zummaries_by_time zs).getD p default).scheduled = false := by
    rw [List.getD_eq_getElem _ default (by omega)]
    exact hunsched _ ((sort_time_perm zs).mem_iff.mp (List.getElem_mem _))
  rw [hus, Bool.false_or]

/-- Witness for C3's amended statement at the counterexample input. -/
theorem C3_witness :
    ((phaseA c3cfg [z1]).1.getD 0 default).scheduled
      = eligible c3cfg ((sort_zummaries_by_time [z1]).getD 0 default) :=
  C3_limit0_schedules_eligible c3cfg [z1] rfl (by decide) 0 (by decide)

/-- C4 counterexample: a run on which the packing loop cannot reach its
break.  The program performs no explicit incomplete-scheduling check and
never aborts with a fatal error: the Phase B loop reads out of bounds
(`none`) — there is no detect-and-abort path in the packer. -/
theorem C4_counterexample : pack c4cfg [z1] = none := by
  simp +decide [pack, phaseA, phaseA_go, phaseB, phaseB_go, sort_zummaries_by_time,
    sort_zummaries_by_memory, exchOuter, exchInner, lexLe, eligible, schedule_zummary,
    bstep, next_bucket, next_bucket_go, cap, bucket0, c4cfg, mkPackCfg, tasks_of,
    last_bucket_size_of, z1, zA]

/-- C4 amended: the packing loop contains no explicit
incomplete-scheduling abort.  Its only normal exit is the break guarded by
the check `scheduled == size_zummaries`, so any result the packer produces
has its counter equal to the record count and every record scheduled —
incomplete scheduling is never silently accepted — but when the loop
cannot complete it reads out of bounds rather than aborting with a
diagnostic. -/
theorem C4_no_silent_incomplete (bs f : Nat) (mem : Rat) (zs : List Zummary)
    (hbs : 0 < bs) (hzs : zs ≠ []) (hunsched : ∀ z ∈ zs, z.scheduled = false) :
    ∀ out, pack (mkPackCfg bs f mem zs.length) zs = some out →
      out.2.2 = out.1.length ∧ (∀ z ∈ out.1, z.scheduled = true) := by
  intro out hout
  have hn : 0 < zs.length := List.length_pos.mpr hzs
  obtain ⟨a1, a2, a3, a4, a5⟩ := mkPackCfg_arith bs f mem zs.length hbs hn
  obtain ⟨_, _, _, _, _, _, hA3⟩ :=
    pack_spec (mkPackCfg bs f mem zs.length) zs a1 a2 a3 a4 a5 hunsched
  refine phaseB_go_complete (mkPackCfg bs f mem zs.length)
    (sort_zummaries_by_memory (phaseA (mkPackCfg bs f mem zs.length) zs).1).length
    (sort_zummaries_by_memory (phaseA (mkPackCfg bs f mem zs.length) zs).1)
    (phaseA (mkPackCfg bs f mem zs.length) zs).2.1
    ((mkPackCfg bs f mem zs.length).tasks - 1)
    (phaseA (mkPackCfg bs f mem zs.length) zs).2.2 out (le_refl _) ?_ hout
  rw [hA3]
  unfold nsched
  exact ((sort_memory_perm _).countP_eq _).symm

/-- Witness for C4 on an input whose packing completes: the result's
counter equals its record count. -/
theorem C4_witness :
    pack_sched_count (pack c6cfg [w1, w2, w3]) = pack_len (pack c6cfg [w1, w2, w3]) := by
  have h := C4_no_silent_incomplete 2 50 8000 [w1, w2, w3] (by omega) (by simp) (by decide)
  cases hp : pack c6cfg [w1, w2, w3] with
  | none => rfl
  | some out =>
    have := (h out hp).1
    simp only [pack_sched_count, pack_len]
    exact this

/-- C5: a valid input (two records with distinct names, all unscheduled,
bucket_size 1 > 0) on which the claimed exhaustiveness fails: Phase A
schedules both records and the two-phase packer then reads out of bounds
(`none`) instead of finishing with every record scheduled exactly once. -/
theorem C5_failing_input :
    (∀ z ∈ [w4, w5], z.scheduled = false) ∧
    (phaseA c5cfg [w4, w5]).2.2 = 2 ∧
    pack c5cfg [w4, w5] = none := by
  refine ⟨by decide, ?_, ?_⟩ <;>
    simp +decide [pack, phaseA, phaseA_go, phaseB, phaseB_go, sort_zummaries_by_time,
      sort_zummaries_by_memory, exchOuter, exchInner, lexLe, eligible, schedule_zummary,
      bstep, next_bucket, next_bucket_go, cap, bucket0, c5cfg, mkPackCfg, tasks_of,
      last_bucket_size_of, w4, w5, zA]

/-- C6: the bucket count is `tasks = ceil(N / bucket_size)`; the last
bucket's capacity is `N mod bucket_size` (or `bucket_size` when the
division is exact) and every other bucket's capacity is `bucket_size`;
during packing no bucket ever exceeds its capacity (after Phase A every
bucket is within its cap); and whenever packing completes — any `some`
result of two-phase mode, and keep mode unconditionally — there are
exactly `tasks` buckets, each filled exactly to its capacity. -/
theorem C6_bucket_layout (bs f : Nat) (mem : Rat) (zs : List Zummary) (idxs : List Nat)
    (hbs : 0 < bs) (hzs : zs ≠ [])
    (hunsched : ∀ z ∈ zs, z.scheduled = false) (hidxs : idxs.length = zs.length) :
    tasks_of zs.length bs = (zs.length + bs - 1) / bs ∧
    last_bucket_size_of zs.length bs
      = (if zs.length % bs == 0 then bs else zs.length % bs) ∧
    (∀ k, k < (mkPackCfg bs f mem zs.length).tasks →
      ((phaseA (mkPackCfg bs f mem zs.length) zs).2.1.getD k default).size
        ≤ cap (mkPackCfg bs f mem zs.length) k) ∧
    (∀ out, pack (mkPackCfg bs f mem zs.length) zs = some out →
      out.2.1.length = (mkPackCfg bs f mem zs.length).tasks ∧
      ∀ k, k < (mkPackCfg bs f mem zs.length).tasks →
        (out.2.1.getD k default).size = cap (mkPackCfg bs f mem zs.length) k) ∧
    ((keep_pack (mkPackCfg bs f mem zs.length) idxs zs).2.1.length
        = (mkPackCfg bs f mem zs.length).tasks ∧
      ∀ k, k < (mkPackCfg bs f mem zs.length).tasks →
        ((keep_pack (mkPackCfg bs f mem zs.length) idxs zs).2.1.getD k default).size
          = cap (mkPackCfg bs f mem zs.length) k) := by
  have hn : 0 < zs.length := List.length_pos.mpr hzs
  obtain ⟨a1, a2, a3, a4, a5⟩ := mkPackCfg_arith bs f mem zs.length hbs hn
  obtain ⟨h1, h2, h3, h4, _, _, _⟩ :=
    pack_spec (mkPackCfg bs f mem zs.length) zs a1 a2 a3 a4 a5 hunsched
  have hdm : bs * (zs.length / bs) + zs.length % bs = zs.length := Nat.div_add_mod _ _
  have hcomm : (zs.length / bs) * bs = bs * (zs.length / bs) := Nat.mul_comm _ _
  refine ⟨tasks_of_ceil zs.length bs hbs hn, ?_, h3, ?_, ?_⟩
  · unfold last_bucket_size_of
    by_cases hex : ((zs.length / bs) * bs == zs.length) = true
    · rw [if_pos hex]
      rw [beq_iff_eq] at hex
      rw [if_pos (beq_iff_eq.mpr (by omega))]
    · rw [if_neg hex]
      have hex' : (zs.length / bs) * bs ≠ zs.length := fun hh => hex (beq_iff_eq.mpr hh)
      have hmodne : ¬ ((zs.length % bs == 0) = true) := by
        intro hc
        rw [beq_iff_eq] at hc
        exact hex' (by omega)
      rw [if_neg hmodne]
  · intro out hout
    rcases Nat.lt_or_ge (phaseA (mkPackCfg bs f mem zs.length) zs).2.2 zs.length
      with hlt | hge
    · obtain ⟨zs', bsk', hp, hzl, hbl, hall, hcaps⟩ := h1 hlt
      rw [hp] at hout
      have hpair := Option.some_inj.mp hout
      have hb0 : bsk' = out.2.1 := by rw [← hpair]
      rw [← hb0]
      exact ⟨hbl, hcaps⟩
    · have heq : (phaseA (mkPackCfg bs f mem zs.length) zs).2.2 = zs.length :=
        Nat.le_antisymm h4 hge
      rw [h2 heq] at hout
      cases hout
  · have hrep : ∀ k,
        (List.replicate (mkPackCfg bs f mem zs.length).tasks bucket0).getD k default
          = bucket0 := by
      intro k
      rcases Nat.lt_or_ge k (mkPackCfg bs f mem zs.length).tasks with hk | hk
      · rw [List.getD_eq_getElem _ default (by rw [List.length_replicate]; exact hk)]
        rw [List.getElem_replicate]
      · exact getD_of_le _ default (by rw [List.length_replicate]; omega)
    have hpost := keep_go_post (mkPackCfg bs f mem zs.length) a1 a2 a3 a4 idxs zs
      (List.replicate (mkPackCfg bs f mem zs.length).tasks bucket0) 0 0
      (List.length_replicate _ _)
      (fun k hk => absurd hk (by omega))
      (fun k _ => by rw [hrep k]; rfl)
      (by rw [hrep 0]; show (0 : Nat) = 0 * (mkPackCfg bs f mem zs.length).bucket_size + 0
          omega)
      (fun _ => by rw [hrep 0]; exact a1)
      (by rw [hidxs]; omega)
    obtain ⟨hkl, hkc, hkshape⟩ := hpost
    have hcount : (keep_go (mkPackCfg bs f mem zs.length) zs
        (List.replicate (mkPackCfg bs f mem zs.length).tasks bucket0) 0 0 idxs).2.2
          = zs.length := by
      rw [hkc, hidxs]
      omega
    have hsum := shape_sum (mkPackCfg bs f mem zs.length) _ _ hkl a1 hkshape
      (by rw [hcount]; omega) a4 a2
    have hcapsle := (shape_caps (mkPackCfg bs f mem zs.length) _ _ hkl a1 hkshape
      (by rw [hcount]; omega) a3 a4 a2).1
    have heqcaps := sizes_eq_caps (mkPackCfg bs f mem zs.length) _ hkl hcapsle
      (by rw [hsum, hcount, capsSum_eq _ a2]; omega)
    exact ⟨hkl, heqcaps⟩

/-- Witness for C6 at three records, bucket size 2: two buckets whose
sizes match the capacities (the last bucket holds one record). -/
theorem C6_witness :
    tasks_of 3 2 = (3 + 2 - 1) / 2 ∧
    ((keep_pack c6cfg [0, 1, 2] [w1, w2, w3]).2.1.getD 1 default).size = cap c6cfg 1 := by
  have h := C6_bucket_layout 2 50 8000 [w1, w2, w3] [0, 1, 2] (by omega) (by simp)
    (by decide) (by decide)
  exact ⟨h.1, h.2.2.2.2.2 1 (by decide)⟩

/-- C7 counterexample to the tie-break rule as claimed: after the first
bucket (makespan 0) is placed on node 0, node 0 is busy with end time 0
and node 1 is idle (end time 0).  The claimed rule — smallest end time,
ties to the lowest index — picks node 0, but the code's scan prefers the
first idle node and assigns the second bucket to node 1. -/
theorem C7_counterexample :
    ((run_nodes 2 [nb0, nb5]).2.2.2.map Assign.pos) = [0, 1] ∧
    spec_pick_node [some { nb0 with start := 0, «end» := 0 }, none] = 0 ∧
    (pick_node [some { nb0 with start := 0, «end» := 0 }, none]).1 = 1 := by
  refine ⟨?_, rfl, rfl⟩
  simp +decide [run_nodes, run_nodes_go, sort_buckets_by_real, exchOuter, exchInner,
    bucketRealLe, pick_node, pick_go, node_end, nb0, nb5, bucket0]

/-- C7 amended: the node scheduler processes the buckets ascending by
makespan (a permutation of the input, positionally sorted by `real`);
every scheduled bucket satisfies `end = start + real`; every assignment
goes to a node index below `size_nodes` with `start ≤ end`; the
assignments of each node chain — each starts exactly at that node's
previous end, starting from 0 — so the intervals are non-overlapping and
non-decreasing; the reported latency is the maximum assignment end (0
when there are none); and the selection rule is: the first idle node when
one exists, otherwise the busy node with the strictly smallest end time —
so a tie between an idle node and a busy node of lower index goes to the
idle node, not the lowest index. -/
theorem C7_node_scheduler (n : Nat) (bs : List Bucket) (hn : 0 < n)
    (hreal : ∀ b ∈ bs, 0 ≤ b.real) :
    (sort_buckets_by_real bs).Perm bs ∧
    (∀ p q, p < q → q < bs.length →
      ((sort_buckets_by_real bs).getD p default).real
        ≤ ((sort_buckets_by_real bs).getD q default).real) ∧
    (∀ i, i < bs.length →
      ((run_nodes n bs).2.2.1.getD i default).«end»
        = ((run_nodes n bs).2.2.1.getD i default).start
          + ((run_nodes n bs).2.2.1.getD i default).real) ∧
    (∀ a ∈ (run_nodes n bs).2.2.2, a.pos < n ∧ a.start ≤ a.«end») ∧
    (∀ p, chain_from 0 ((run_nodes n bs).2.2.2.filter (fun a => a.pos == p))) ∧
    (∀ a ∈ (run_nodes n bs).2.2.2, a.«end» ≤ (run_nodes n bs).2.1) ∧
    ((run_nodes n bs).2.1 = 0 ∨
      ∃ a ∈ (run_nodes n bs).2.2.2, (run_nodes n bs).2.1 = a.«end») ∧
    (∀ nodes : List (Option Bucket), 0 < nodes.length →
      (pick_node nodes).1 < nodes.length ∧
      nodes.getD (pick_node nodes).1 none = (pick_node nodes).2 ∧
      ((pick_node nodes).2 = none →
        ∀ k, k < (pick_node nodes).1 → nodes.getD k none ≠ none) ∧
      (∀ rb, (pick_node nodes).2 = some rb →
        ∀ k, k < nodes.length → ∀ b, nodes.getD k none = some b →
          rb.«end» ≤ b.«end» ∧ (k < (pick_node nodes).1 → rb.«end» < b.«end»))) := by
  have hsortlen : (sort_buckets_by_real bs).length = bs.length := sort_buckets_len bs
  have hreplen : (List.replicate n (none : Option Bucket)).length = n :=
    List.length_replicate _ _
  have hrepD : ∀ p, (List.replicate n (none : Option Bucket)).getD p none = none :=
    fun p => replicate_getD (none : Option Bucket) n p rfl
  obtain ⟨hs1, hs2, hs3, hs4, hs5, hs6⟩ :=
    run_nodes_go_spec (sort_buckets_by_real bs) (List.replicate n none) 0
      (by rw [hreplen]; exact hn)
  have hrn : run_nodes n bs
      = run_nodes_go (List.replicate n none) 0 (sort_buckets_by_real bs) := rfl
  have hsorted : ∀ p q, p < q → q < bs.length →
      ((sort_buckets_by_real bs).getD p default).real
        ≤ ((sort_buckets_by_real bs).getD q default).real := by
    intro p q hpq hq
    have hsrt := exchOuter_sorted (fun _ => false) bucketRealLe
      (fun a => bucketRealLe_refl a) (fun a b h => bucketRealLe_total a b h)
      (fun a b c h1 h2 => bucketRealLe_trans a b c h1 h2)
      bs.length bs bs.length 0 (by omega) (by omega) (by omega)
      (fun p' q' hp' _ _ _ _ => absurd hp' (by omega)) p q hpq hq rfl rfl
    have hsrt' : bucketRealLe ((sort_buckets_by_real bs).getD p default)
        ((sort_buckets_by_real bs).getD q default) = true := hsrt
    unfold bucketRealLe at hsrt'
    exact of_decide_eq_true hsrt'
  refine ⟨sort_buckets_perm bs, hsorted, ?_, ?_, ?_, ?_, ?_, ?_⟩
  · intro i hi
    rw [hrn]
    have hil : i < (sort_buckets_by_real bs).length := by rw [hsortlen]; exact hi
    obtain ⟨ho, he, _⟩ := hs4 i hil
    rw [ho]
    exact he
  · intro a ha
    rw [hrn] at ha
    obtain ⟨i, hilt, hia⟩ := List.mem_iff_getElem.mp ha
    have hil : i < (sort_buckets_by_real bs).length := by
      rw [hsortlen]
      rw [hs3] at hilt
      rw [← hsortlen]
      exact hilt
    have hiD : (run_nodes_go (List.replicate n none) 0
        (sort_buckets_by_real bs)).2.2.2.getD i default = a := by
      rw [List.getD_eq_getElem _ default hilt]
      exact hia
    obtain ⟨_, he, hpos⟩ := hs4 i hil
    rw [hiD] at he hpos
    rw [hreplen] at hpos
    refine ⟨hpos, ?_⟩
    rw [he]
    have hmem : (sort_buckets_by_real bs).getD i default ∈ sort_buckets_by_real bs := by
      rw [List.getD_eq_getElem _ default hil]
      exact List.getElem_mem hil
    have hr0 : 0 ≤ ((sort_buckets_by_real bs).getD i default).real :=
      hreal _ ((sort_buckets_perm bs).mem_iff.mp hmem)
    exact le_add_of_nonneg_right hr0
  · intro p
    rw [hrn]
    have h5 := hs5 p
    rw [hrepD p] at h5
    exact h5
  · intro a ha
    rw [hrn] at ha ⊢
    rw [hs6]
    exact (foldl_latency_spec _ 0).2.1 a ha
  · rw [hrn, hs6]
    rcases (foldl_latency_spec
        ((run_nodes_go (List.replicate n none) 0 (sort_buckets_by_real bs)).2.2.2) 0).2.2
      with h0 | ⟨a, ha, he⟩
    · exact Or.inl h0
    · exact Or.inr ⟨a, ha, he⟩
  · intro nodes hn'
    obtain ⟨p1, p2, p3, p4⟩ := pick_node_spec nodes hn'
    exact ⟨p1, p2, p3, fun rb hrb => (p4 rb hrb).1⟩

/-- Witness for C7's amended statement: the two concrete buckets come out
sorted ascending by makespan. -/
theorem C7_witness :
    ((sort_buckets_by_real [nb5, nb0]).getD 0 default).real
      ≤ ((sort_buckets_by_real [nb5, nb0]).getD 1 default).real := by
  have h := C7_node_scheduler 2 [nb5, nb0] (by omega) (by decide)
  exact h.2.1 0 1 (by omega) (by decide)

/-- C8: assuming names are unique within each collection, matching
succeeds iff the benchmark name set and the record name set agree (each
of the three `die` branches — record without descriptor, descriptor
without record, size mismatch — is modelled by `none`); on success every
record is linked to a benchmark of equal name with its `scheduled` flag
initialized to `false`, and every benchmark is linked to a record of
equal name. -/
theorem C8_matching (bs : List Benchmark) (zs : List Zummary)
    (hb : (bs.map Benchmark.name).Nodup) (hz : (zs.map Zummary.name).Nodup) :
    ((match_collections bs zs).isSome = true ↔
      ∀ n : String, n ∈ bs.map Benchmark.name ↔ n ∈ zs.map Zummary.name) ∧
    (∀ zs' bs', match_collections bs zs = some (zs', bs') →
      zs'.length = zs.length ∧ bs'.length = bs.length ∧
      (∀ p, p < zs.length → ∃ bi, bi < bs.length ∧
        (bs.getD bi default).name = (zs.getD p default).name ∧
        zs'.getD p default
          = { zs.getD p default with benchmark := some bi, scheduled := false }) ∧
      (∀ p, p < bs.length → ∃ zi, zi < zs.length ∧
        (zs.getD zi default).name = (bs.getD p default).name ∧
        bs'.getD p default = { bs.getD p default with zummary := some zi })) := by
  constructor
  · constructor
    · intro hsome
      unfold match_collections at hsome
      cases hlz : link_zummaries bs zs with
      | none => rw [hlz] at hsome; cases hsome
      | some zs0 =>
        rw [hlz] at hsome
        cases hlb : link_benchmarks zs bs with
        | none => rw [hlb] at hsome; cases hsome
        | some bs0 =>
          intro n
          constructor
          · intro hnm
            obtain ⟨b, hbmem, hbn⟩ := List.mem_map.mp hnm
            have hfz := (link_benchmarks_isSome zs bs).mp (by rw [hlb]; rfl) b hbmem
            rw [find_zummary_isSome] at hfz
            rw [← hbn]
            exact hfz
          · intro hnm
            obtain ⟨z, hzmem, hzn⟩ := List.mem_map.mp hnm
            have hfb := (link_zummaries_isSome bs zs).mp (by rw [hlz]; rfl) z hzmem
            rw [find_benchmark_isSome] at hfb
            rw [← hzn]
            exact hfb
    · intro hsets
      have hperm : (bs.map Benchmark.name).Perm (zs.map Zummary.name) :=
        (List.perm_ext_iff_of_nodup hb hz).mpr hsets
      have hlen : bs.length = zs.length := by
        have hl := hperm.length_eq
        simpa using hl
      have hlz : (link_zummaries bs zs).isSome = true := by
        rw [link_zummaries_isSome]
        intro z hzm
        rw [find_benchmark_isSome]
        exact (hsets z.name).mpr (List.mem_map_of_mem Zummary.name hzm)
      have hlb : (link_benchmarks zs bs).isSome = true := by
        rw [link_benchmarks_isSome]
        intro b hbm
        rw [find_zummary_isSome]
        exact (hsets b.name).mp (List.mem_map_of_mem Benchmark.name hbm)
      obtain ⟨zs0, hzs0⟩ := Option.isSome_iff_exists.mp hlz
      obtain ⟨bs0, hbs0⟩ := Option.isSome_iff_exists.mp hlb
      unfold match_collections
      rw [hzs0, hbs0]
      simp only []
      rw [if_pos (beq_iff_eq.mpr hlen)]
      rfl
  · intro zs' bs' hm
    unfold match_collections at hm
    cases hlz : link_zummaries bs zs with
    | none => rw [hlz] at hm; cases hm
    | some zs0 =>
      rw [hlz] at hm
      cases hlb : link_benchmarks zs bs with
      | none => rw [hlb] at hm; cases hm
      | some bs0 =>
        rw [hlb] at hm
        simp only [] at hm
        by_cases hlen : (bs.length == zs.length) = true
        · rw [if_pos hlen] at hm
          have hpair := Option.some_inj.mp hm
          have hz0 : zs0 = zs' := congrArg Prod.fst hpair
          have hb0 : bs0 = bs' := congrArg Prod.snd hpair
          rw [hz0] at hlz
          rw [hb0] at hlb
          obtain ⟨hl1, hget1⟩ := link_zummaries_get bs zs zs' hlz
          obtain ⟨hl2, hget2⟩ := link_benchmarks_get zs bs bs' hlb
          refine ⟨hl1, hl2, ?_, ?_⟩
          · intro p hp
            obtain ⟨bi, hfb, hupd⟩ := hget1 p hp
            obtain ⟨hbi, hname⟩ := find_benchmark_some _ bs bi hfb
            exact ⟨bi, hbi, hname, hupd⟩
          · intro p hp
            obtain ⟨zi, hfz, hupd⟩ := hget2 p hp
            obtain ⟨hzi, hname⟩ := find_zummary_some _ zs zi hfz
            exact ⟨zi, hzi, hname, hupd⟩
        · rw [if_neg hlen] at hm
          cases hm

/-- Witness for C8: one benchmark and one record of equal name match. -/
theorem C8_witness : (match_collections [benchA] [zA]).isSome = true := by
  have h := C8_matching [benchA] [zA] (by decide) (by decide)
  refine h.1.mpr ?_
  intro n
  rw [show [benchA].map Benchmark.name = ["A"] from rfl,
    show [zA].map Zummary.name = ["A"] from rfl]

/-- C9 counterexample to stability: records X and Y are unscheduled and
equal in both keys (memory 2, wall 2), and Z sorts before both; the
memory sort emits Y before X, inverting their original relative order —
the exchange sort is not stable. -/
theorem C9_sort_counterexample :
    sX.real = sY.real ∧ sX.memory = sY.memory ∧
    sX.scheduled = false ∧ sY.scheduled = false ∧
    ((sort_zummaries_by_memory [sX, sY, sZ]).map Zummary.name) = ["Z", "Y", "X"] := by
  refine ⟨rfl, rfl, rfl, rfl, ?_⟩
  simp +decide [sort_zummaries_by_memory, exchOuter, exchInner, lexLe, sX, sY, sZ, zA]

/-- C9 amended: each packing sort permutes the records, leaves every
scheduled record in place, and orders the unscheduled records by its
keys — Phase A ascending by wall time with ties broken ascending by
memory, Phase B ascending by memory with ties broken ascending by wall
time (pairs equal in both keys may appear in either order: the exchange
sort is not stable). -/
theorem C9_sorts_ordered (zs : List Zummary) :
    ((sort_zummaries_by_time zs).Perm zs ∧
      (∀ p, (zs.getD p default).scheduled = true →
        (sort_zummaries_by_time zs).getD p default = zs.getD p default) ∧
      (∀ p q, p < q → q < zs.length →
        ((sort_zummaries_by_time zs).getD p default).scheduled = false →
        ((sort_zummaries_by_time zs).getD q default).scheduled = false →
        lexLe Zummary.real Zummary.memory ((sort_zummaries_by_time zs).getD p default)
          ((sort_zummaries_by_time zs).getD q default) = true)) ∧
    ((sort_zummaries_by_memory zs).Perm zs ∧
      (∀ p, (zs.getD p default).scheduled = true →
        (sort_zummaries_by_memory zs).getD p default = zs.getD p default) ∧
      (∀ p q, p < q → q < zs.length →
        ((sort_zummaries_by_memory zs).getD p default).scheduled = false →
        ((sort_zummaries_by_memory zs).getD q default).scheduled = false →
        lexLe Zummary.memory Zummary.real ((sort_zummaries_by_memory zs).getD p default)
          ((sort_zummaries_by_memory zs).getD q default) = true)) := by
  refine ⟨⟨sort_time_perm zs, ?_, ?_⟩, ⟨sort_memory_perm zs, ?_, ?_⟩⟩
  · intro p hp
    exact exchOuter_skip_stable (fun z => z.scheduled)
      (lexLe Zummary.real Zummary.memory) zs.length zs (zs.length - 1) 0
      (by omega) (by omega) p hp
  · intro p q hpq hq hsp hsq
    exact exchOuter_sorted (fun z => z.scheduled) (lexLe Zummary.real Zummary.memory)
      (fun a => lexLe_refl _ _ a) (fun a b h => lexLe_total _ _ a b h)
      (fun a b c h1 h2 => lexLe_trans _ _ a b c h1 h2)
      zs.length zs (zs.length - 1) 0 (by omega) (by omega) (by omega)
      (fun p' q' hp' _ _ _ _ => absurd hp' (by omega)) p q hpq hq hsp hsq
  · intro p hp
    exact exchOuter_skip_stable (fun z => z.scheduled)
      (lexLe Zummary.memory Zummary.real) zs.length zs (zs.length - 1) 0
      (by omega) (by omega) p hp
  · intro p q hpq hq hsp hsq
    exact exchOuter_sorted (fun z => z.scheduled) (lexLe Zummary.memory Zummary.real)
      (fun a => lexLe_refl _ _ a) (fun a b h => lexLe_total _ _ a b h)
      (fun a b c h1 h2 => lexLe_trans _ _ a b c h1 h2)
      zs.length zs (zs.length - 1) 0 (by omega) (by omega) (by omega)
      (fun p' q' hp' _ _ _ _ => absurd hp' (by omega)) p q hpq hq hsp hsq

/-- Witness for C9's amended statement at the counterexample input: the
first two emitted records are ordered under the memory-then-wall key. -/
theorem C9_witness :
    lexLe Zummary.memory Zummary.real
      ((sort_zummaries_by_memory [sX, sY, sZ]).getD 0 default)
      ((sort_zummaries_by_memory [sX, sY, sZ]).getD 1 default) = true := by
  have h := C9_sorts_ordered [sX, sY, sZ]
  refine h.2.2.2 0 1 (by omega) (by decide) ?_ ?_ <;>
    simp +decide [sort_zummaries_by_memory, exchOuter, exchInner, lexLe, sX, sY, sZ, zA]

/-- C10: the cost quantities are pure functions of the packed buckets and
the configured constants, computed exactly by the spec's formulas:
`sum_real` is the sum of the bucket makespans, `core_seconds =
bucket_size * sum_real`, `core_hours = core_seconds / 3600`, `power_kwh =
core_hours * watt_per_core / 1000`, `cost = cents_per_kwh * power_kwh /
100`. -/
theorem C10_cost_formulas (bucket_size watt_per_core cents_per_kwh : Nat)
    (bs : List Bucket) :
    sum_real_buckets bs = (bs.map Bucket.real).sum ∧
    core_seconds bucket_size bs = (bucket_size : Rat) * sum_real_buckets bs ∧
    core_hours bucket_size bs = core_seconds bucket_size bs / 3600 ∧
    power_usage bucket_size watt_per_core bs
      = core_hours bucket_size bs * (watt_per_core : Rat) / 1000 ∧
    costs bucket_size watt_per_core cents_per_kwh bs
      = (cents_per_kwh : Rat) * power_usage bucket_size watt_per_core bs / 100 := by
  refine ⟨?_, rfl, rfl, rfl, rfl⟩
  unfold sum_real_buckets
  rw [foldl_add_real]
  ring

end Zort
